import Mathlib

/-!
Verification of the Stera Icon Exporter plugin core (src/code.ts, first
version in the file, lines 1-929) against its natural-language
specification.

Embedding conventions:
* JavaScript strings are modelled as `List Char` (UTF-16 code units; all
  markup handled by the pipeline is ASCII, so code units coincide with
  code points).  Lean `String` is avoided in computations because its
  byte-indexed primitives do not reduce in the kernel.
* The JavaScript regex-global-replace loops are modelled as character
  scanners.  Scanners whose step can consume a variable number of
  characters take an explicit fuel argument, always called with
  `length + 1`, which is sufficient because every iteration consumes at
  least one character.
* JavaScript 32-bit integer coercion (`x | 0`, `x & x`, `<<`) is modelled
  by `toInt32` on unbounded `Int`.
* JavaScript truthiness of a string value (`if (s)`) is `s ≠ ""`.
-/

namespace Stera

/-- Characters matched by the JavaScript regex class `\s`
(ASCII fragment; the pipeline only sees ASCII markup). -/
def jsWs (c : Char) : Bool :=
  c == ' ' || c == '\t' || c == '\n' || c == '\r' || c == '\x0b' || c == '\x0c'

/-- Character class `\w` of JavaScript regexes: `[A-Za-z0-9_]`. -/
def jsWordChar (c : Char) : Bool :=
  (65 ≤ c.toNat && c.toNat ≤ 90) || (97 ≤ c.toNat && c.toNat ≤ 122) ||
    (48 ≤ c.toNat && c.toNat ≤ 57) || c == '_'

def isAsciiUpper (c : Char) : Bool := 65 ≤ c.toNat && c.toNat ≤ 90

def isAsciiLower (c : Char) : Bool := 97 ≤ c.toNat && c.toNat ≤ 122

def isAsciiDigit (c : Char) : Bool := 48 ≤ c.toNat && c.toNat ≤ 57

def isAsciiLetter (c : Char) : Bool := isAsciiUpper c || isAsciiLower c

/-- ASCII fragment of `String.prototype.toLowerCase`. -/
def jsToLower (c : Char) : Char :=
  if isAsciiUpper c then Char.ofNat (c.toNat + 32) else c

/-- Lowercase a whole string (`.toLowerCase()` on ASCII input). -/
def lowerStr (s : List Char) : List Char := s.map jsToLower

/-- `String.prototype.trim` (ASCII whitespace fragment). -/
def jsTrim (s : List Char) : List Char :=
  ((s.dropWhile jsWs).reverse.dropWhile jsWs).reverse

/-- Decide whether `pat` occurs at the start of `s` (`String.startsWith`). -/
def startsWithList : List Char → List Char → Bool
  | [], _ => true
  | _ :: _, [] => false
  | p :: ps, c :: cs => p == c && startsWithList ps cs

/-- Decide whether `pat` occurs somewhere in `s`
(`String.prototype.includes`). -/
def containsList (s pat : List Char) : Bool :=
  match s with
  | [] => startsWithList pat []
  | _ :: cs => startsWithList pat s || containsList cs pat

/-- Index of the first occurrence of `pat` in `s` (`String.indexOf`). -/
def indexOfFrom (s pat : List Char) (acc : Nat) : Option Nat :=
  match s with
  | [] => if startsWithList pat [] then some acc else none
  | _ :: cs =>
    if startsWithList pat s then some acc else indexOfFrom cs pat (acc + 1)

/-- `String.prototype.split` on a nonempty plain-string separator. -/
def splitOnList (sep : List Char) : Nat → List Char → List (List Char)
  | 0, cs => [cs]
  | _ + 1, [] => [[]]
  | fuel + 1, c :: cs =>
    if startsWithList sep (c :: cs) then
      [] :: splitOnList sep fuel ((c :: cs).drop sep.length)
    else
      match splitOnList sep fuel cs with
      | [] => [[c]]
      | part :: parts => (c :: part) :: parts

/-- `s.split(sep)` with adequate fuel. -/
def jsSplit (s sep : List Char) : List (List Char) :=
  splitOnList sep (s.length + 1) s

/-- Lexicographic comparison of strings by code unit, the order used by
JavaScript `Array.prototype.sort()` without a comparator. -/
def strLe : List Char → List Char → Bool
  | [], _ => true
  | _ :: _, [] => false
  | a :: as, b :: bs =>
    if a.toNat < b.toNat then true
    else if b.toNat < a.toNat then false
    else strLe as bs

/-! ## Content hasher (`generateHash`, code.ts lines 224-236) -/

/-- Fold an unbounded integer into the range of 32-bit two's-complement
integers, as JavaScript `ToInt32` does. -/
def toInt32 (n : Int) : Int := (n + 2 ^ 31) % 2 ^ 32 - 2 ^ 31

/-- One iteration of the `generateHash` loop:
`hash = ((hash << 5) - hash) + char; hash = hash & hash;`.
`hash << 5` truncates to 32 bits on its own, and `hash & hash` truncates
the sum again. -/
def hashStep (h : Int) (c : Nat) : Int := toInt32 (toInt32 (h * 32) - h + (c : Int))

def hashLoop (h : Int) : List Nat → Int
  | [] => h
  | c :: cs => hashLoop (hashStep h c) cs

/-- `n.toString(16)`: lowercase hexadecimal digits of a natural number. -/
def hexDigits (n : Nat) : List Char := Nat.toDigits 16 n

/-- `.padStart(8, '0')`. -/
def padStart8 (cs : List Char) : List Char :=
  List.replicate (8 - cs.length) '0' ++ cs

/-- `generateHash` from code.ts lines 224-236, over the UTF-16 code units
of the input string. -/
def generateHash (input : List Nat) : List Char :=
  if input.length = 0 then hexDigits 0
  else padStart8 (hexDigits (hashLoop 0 input).natAbs)

/-- `generateHash` applied to an ASCII string. -/
def generateHashStr (s : List Char) : List Char :=
  generateHash (s.map Char.toNat)

/-- Modelled from the spec (§4.3, claim C4): "a deterministic,
order-sensitive rolling hash over the UTF-16 code units of the input
(classic multiply-shift-add accumulator `h := (h << 5) - h + code` folded
into a 32-bit signed integer, absolute value rendered as lowercase hex,
left-padded to 8 characters).  Empty input maps to the hash of zero." -/
def specHashStep (h : Int) (c : Nat) : Int := toInt32 (h * 32 - h + (c : Int))

def specHashLoop (h : Int) : List Nat → Int
  | [] => h
  | c :: cs => specHashLoop (specHashStep h c) cs

def specHash (input : List Nat) : List Char :=
  if input = [] then hexDigits 0
  else padStart8 (hexDigits (specHashLoop 0 input).natAbs)

/-! ## Kebab-casing (`toKebabCase`, code.ts lines 210-218) -/

/-- `.replace(/([a-z])([A-Z])/g, '$1-$2')`: insert a hyphen between a
lowercase letter and an immediately following uppercase letter; the
global scan resumes after each matched pair. -/
def kebabCamel : List Char → List Char
  | a :: b :: rest =>
    if isAsciiLower a && isAsciiUpper b then a :: '-' :: b :: kebabCamel rest
    else a :: kebabCamel (b :: rest)
  | l => l

/-- Global replace of each maximal run of whitespace and underscores by
a single hyphen (regex `[\s_]+`, global).  The boolean state records
whether the scanner is inside such a run (structural recursion so the
kernel can evaluate it). -/
def kebabSpacesGo : Bool → List Char → List Char
  | _, [] => []
  | true, c :: cs =>
    if jsWs c || c == '_' then kebabSpacesGo true cs
    else c :: kebabSpacesGo false cs
  | false, c :: cs =>
    if jsWs c || c == '_' then '-' :: kebabSpacesGo true cs
    else c :: kebabSpacesGo false cs

def kebabSpaces (l : List Char) : List Char := kebabSpacesGo false l

/-- `.replace(/[^a-z0-9-]/g, '')`. -/
def kebabAllowed (c : Char) : Bool := isAsciiLower c || isAsciiDigit c || c == '-'

/-- Global replace of each hyphen run by a single hyphen
(regex dash-plus, global), again as a state machine. -/
def kebabCollapseGo : Bool → List Char → List Char
  | _, [] => []
  | true, c :: cs =>
    if c == '-' then kebabCollapseGo true cs
    else c :: kebabCollapseGo false cs
  | false, c :: cs =>
    if c == '-' then '-' :: kebabCollapseGo true cs
    else c :: kebabCollapseGo false cs

def kebabCollapse (l : List Char) : List Char := kebabCollapseGo false l

/-- Adjacent characters in the output are never both hyphens. -/
def NoDoubleHyphen (l : List Char) : Prop :=
  List.Chain' (fun a b => ¬(a = '-' ∧ b = '-')) l

/-- `.replace(/^-|-$/g, '')`: remove a single leading and a single
trailing hyphen. -/
def kebabTrim (l : List Char) : List Char :=
  let l1 := if l.head? = some '-' then l.tail else l
  if l1.getLast? = some '-' then l1.dropLast else l1

/-- `toKebabCase` from code.ts lines 210-218. -/
def toKebabCase (s : List Char) : List Char :=
  kebabTrim (kebabCollapse (((kebabSpaces (kebabCamel s)).map jsToLower).filter kebabAllowed))

/-! ## SVG canonicalizer: shared string scanners -/

/-- Split a maximal run of characters satisfying `p` off the front. -/
def takeRun (p : Char → Bool) : List Char → (List Char × List Char)
  | [] => ([], [])
  | c :: cs =>
    if p c then
      let r := takeRun p cs
      (c :: r.1, r.2)
    else ([], c :: cs)

/-- Content before the first occurrence of `q` and the remainder after
it; `none` when `q` does not occur. -/
def splitAtChar? (q : Char) : List Char → Option (List Char × List Char)
  | [] => none
  | c :: cs =>
    if c = q then some ([], cs)
    else
      match splitAtChar? q cs with
      | none => none
      | some (pre, post) => some (c :: pre, post)

/-- Content before the first quote character (either kind) and the
remainder after it; the character class `[^"']*` followed by `["']`. -/
def splitAtAnyQuote? : List Char → Option (List Char × List Char)
  | [] => none
  | c :: cs =>
    if c == '"' || c == '\'' then some ([], cs)
    else
      match splitAtAnyQuote? cs with
      | none => none
      | some (pre, post) => some (c :: pre, post)

/-- Content before the first occurrence of the substring `pat` and the
remainder after it. -/
def splitAtSub? (pat : List Char) : List Char → Option (List Char × List Char)
  | [] => none
  | c :: cs =>
    if startsWithList pat (c :: cs) then some ([], (c :: cs).drop pat.length)
    else
      match splitAtSub? pat cs with
      | none => none
      | some (pre, post) => some (c :: pre, post)

/-- Index of the last occurrence of `pat` (`String.lastIndexOf`). -/
def lastIndexOfSub : List Char → List Char → Option Nat
  | [], _ => none
  | c :: cs, pat =>
    match lastIndexOfSub cs pat with
    | some i => some (i + 1)
    | none => if startsWithList pat (c :: cs) then some 0 else none

/-- Case-insensitive `startsWith` (for regexes with the `i` flag; the
patterns involved are ASCII). -/
def startsWithListCI : List Char → List Char → Bool
  | [], _ => true
  | _ :: _, [] => false
  | p :: ps, c :: cs => (jsToLower p == jsToLower c) && startsWithListCI ps cs

/-- Global replace of whitespace runs by single spaces
(the recurring `.replace` with regex backslash-s-plus, global), as a
structural state machine. -/
def wsCollapseGo : Bool → List Char → List Char
  | _, [] => []
  | true, c :: cs =>
    if jsWs c then wsCollapseGo true cs else c :: wsCollapseGo false cs
  | false, c :: cs =>
    if jsWs c then ' ' :: wsCollapseGo true cs else c :: wsCollapseGo false cs

def wsCollapse (s : List Char) : List Char := wsCollapseGo false s

/-- `endsWith`. -/
def endsWithList (pat s : List Char) : Bool :=
  startsWithList pat.reverse s.reverse

/-- Decimal digits of a natural number (template-literal rendering). -/
def natToChars (n : Nat) : List Char := Nat.toDigits 10 n

/-! ## Attribute parsing (`parseAttrs`, code.ts lines 333-344) -/

/-- `out[name] = val` on a JavaScript object modelled as an
insertion-ordered association list with unique keys: an existing key
keeps its position and gets the new value, a new key is appended. -/
def setAttr : List (List Char × List Char) → List Char → List Char →
    List (List Char × List Char)
  | [], k, v => [(k, v)]
  | (k0, v0) :: rest, k, v =>
    if k0 = k then (k0, v) :: rest else (k0, v0) :: setAttr rest k v

/-- Object property lookup `a[k]`. -/
def getAttr : List (List Char × List Char) → List Char → Option (List Char)
  | [], _ => none
  | (k0, v) :: rest, k => if k0 = k then some v else getAttr rest k

/-- JavaScript truthiness of `a[k]`: present with a nonempty value. -/
def truthy : Option (List Char) → Bool
  | none => false
  | some v => !v.isEmpty

def attrNameStart (c : Char) : Bool := isAsciiLetter c || c == '_' || c == ':'

def attrNameChar (c : Char) : Bool :=
  jsWordChar c || c == ':' || c == '.' || c == '-'

/-- Tag-name continuation class of the element regex (same class). -/
def tagNameChar (c : Char) : Bool := attrNameChar c

def bareValueChar (c : Char) : Bool :=
  !jsWs c && c != '"' && c != '\'' && c != '>' && c != '/'

/-- One attempt of the attribute regex
`([A-Za-z_:][\w:.-]*)\s*=\s*("..."|'...'|bare)` at the current
position: returns the name/value pair and the remaining input. -/
def tryAttrAt (cs : List Char) : Option ((List Char × List Char) × List Char) :=
  match cs with
  | [] => none
  | c :: rest =>
    if attrNameStart c then
      let r := takeRun attrNameChar rest
      let name := c :: r.1
      match r.2.dropWhile jsWs with
      | '=' :: afterEq =>
        match afterEq.dropWhile jsWs with
        | '"' :: vrest =>
          match splitAtChar? '"' vrest with
          | some (val, after) => some ((name, val), after)
          | none => none
        | '\'' :: vrest =>
          match splitAtChar? '\'' vrest with
          | some (val, after) => some ((name, val), after)
          | none => none
        | other =>
          let b := takeRun bareValueChar other
          if b.1.isEmpty then none else some ((name, b.1), b.2)
      | _ => none
    else none

/-- The `attrRe.exec` loop of `parseAttrs`: scan left to right, folding
each match into the object. -/
def parseAttrsGo : Nat → List Char → List (List Char × List Char) →
    List (List Char × List Char)
  | 0, _, acc => acc
  | _ + 1, [], acc => acc
  | fuel + 1, c :: cs, acc =>
    match tryAttrAt (c :: cs) with
    | some (nv, rest) => parseAttrsGo fuel rest (setAttr acc nv.1 nv.2)
    | none => parseAttrsGo fuel cs acc

def parseAttrs (s : List Char) : List (List Char × List Char) :=
  parseAttrsGo (s.length + 1) s []

/-! ## Dedup helpers (`stripNs`, `normalizeAttrs`, `keyOf`,
`isSafeToRemove`, code.ts lines 329-398) -/

/-- Strip a leading `[A-Za-z_]\w*:` namespace from a tag name. -/
def stripNs (tag : List Char) : List Char :=
  match tag with
  | [] => []
  | c :: rest =>
    if isAsciiLetter c || c == '_' then
      match (takeRun jsWordChar rest).2 with
      | ':' :: after => after
      | _ => tag
    else tag

/-- Value normalization of `normalizeAttrs`: collapse whitespace and
trim (the sole `d`-specific branch applies the same transformation). -/
def collapseWsTrim (v : List Char) : List Char := jsTrim (wsCollapse v)

def normalizeAttrs (attrs : List (List Char × List Char)) :
    List (List Char × List Char) :=
  attrs.map (fun kv => (kv.1, collapseWsTrim kv.2))

/-- Join with a separator (`Array.prototype.join`). -/
def joinSep (sep : List Char) : List (List Char) → List Char
  | [] => []
  | [x] => x
  | x :: xs => x ++ sep ++ joinSep sep xs

/-- Canonical key of `keyOf`: lowercased namespace-stripped tag, then
the normalized attributes sorted by name, rendered `k=v` and joined
with semicolons. -/
def keyOf (tag : List Char) (attrs : List (List Char × List Char)) :
    List Char :=
  let t := lowerStr (stripNs tag)
  let norm := normalizeAttrs attrs
  let keys := List.insertionSort (fun a b => strLe a b = true) (norm.map Prod.fst)
  let pairs := keys.map (fun k => k ++ ['='] ++ ((getAttr norm k).getD []))
  t ++ ['|'] ++ joinSep [';'] pairs

def SHAPE_TAGS : List (List Char) :=
  ["path".data, "rect".data, "circle".data, "ellipse".data, "line".data,
    "polyline".data, "polygon".data]

def RISKY_ATTRIBUTES : List (List Char) :=
  ["id".data, "class".data, "style".data, "filter".data, "mask".data,
    "clip-path".data, "clipPath".data, "transform".data]

def containsUrlRef (v : List Char) : Bool := containsList v "url(#".data

/-- The opacity regex `[01]` optionally followed by a dot and one or
more zeros, anchored on both sides. -/
def fullOpacityVal : List Char → Bool
  | [] => false
  | c :: rest =>
    (c == '0' || c == '1') &&
      (match rest with
       | [] => true
       | '.' :: zs => !zs.isEmpty && zs.all (fun z => z == '0')
       | _ => false)

/-- `full(k)` in `isSafeToRemove`: attribute absent or a full/zero
opacity literal. -/
def fullOpacity (attrs : List (List Char × List Char)) (k : List Char) : Bool :=
  match getAttr attrs k with
  | none => true
  | some v => fullOpacityVal v

/-- `isSafeToRemove` from code.ts lines 361-388.  Note the truthiness
test `if (a[riskyAttr])`: a risky attribute with an empty value does
not block removal. -/
def isSafeToRemove (tag : List Char) (attrs : List (List Char × List Char))
    (hasChildren : Bool) : Bool :=
  if hasChildren then false
  else
    let t := lowerStr (stripNs tag)
    if !(SHAPE_TAGS.contains t) then false
    else if RISKY_ATTRIBUTES.any (fun r => truthy (getAttr attrs r)) then false
    else if attrs.any (fun kv => containsUrlRef kv.2) then false
    else if !fullOpacity attrs "opacity".data then false
    else if !fullOpacity attrs "fill-opacity".data then false
    else if !fullOpacity attrs "stroke-opacity".data then false
    else
      match getAttr attrs "stroke".data with
      | none => true
      | some v => v == "none".data

/-! ## Element scanning (`elementRe`, code.ts lines 326 and 404-425) -/

/-- One matched element of the element regex: tag, parsed attributes,
inner content (`none` for the self-closing form), and the exact matched
text. -/
structure Elem where
  tag : List Char
  attrs : List (List Char × List Char)
  inner : Option (List Char)
  raw : List Char
deriving DecidableEq

def Elem.hasChildren (e : Elem) : Bool := e.inner.isSome

def isSafeElem (e : Elem) : Bool := isSafeToRemove e.tag e.attrs e.hasChildren

def elemKey (e : Elem) : List Char := keyOf e.tag e.attrs

/-- After the tag name, the regex `(\s+[^>]*?)?\s*` explores attribute
spans lazily; an equivalent deterministic scan tries each position in
turn until the first completion: a slash-gt pair (self-closing) or a gt
followed somewhere by the exact closing tag (paired form).  Reaching a
gt without finding the closing tag fails the whole match, because none
of the quantifiers can cross a gt. -/
def scanCompletion (tag : List Char) (attrAcc : List Char) :
    List Char → Option (List Char × Option (List Char) × List Char)
  | [] => none
  | '>' :: more =>
    match splitAtSub? (['<', '/'] ++ tag ++ ['>']) more with
    | some (innerTxt, after) => some (attrAcc.reverse, some innerTxt, after)
    | none => none
  | '/' :: '>' :: more => some (attrAcc.reverse, none, more)
  | c :: more => scanCompletion tag (c :: attrAcc) more

/-- Match the element regex at the current position; returns the parsed
element and the remaining input.  The tag run is maximal (shortening it
can never help: the following character would belong to the tag class,
which matches neither whitespace, slash nor gt). -/
def matchElementAt (cs : List Char) : Option (Elem × List Char) :=
  match cs with
  | '<' :: c1 :: rest =>
    if isAsciiLetter c1 || c1 == '_' then
      let r := takeRun tagNameChar rest
      let tag := c1 :: r.1
      match r.2 with
      | '/' :: '>' :: after =>
        some (⟨tag, parseAttrs [], none, cs.take (cs.length - after.length)⟩, after)
      | '>' :: inner0 =>
        match splitAtSub? (['<', '/'] ++ tag ++ ['>']) inner0 with
        | some (innerTxt, after) =>
          some (⟨tag, parseAttrs [], some innerTxt,
            cs.take (cs.length - after.length)⟩, after)
        | none => none
      | w :: more =>
        if jsWs w then
          match scanCompletion tag [] (w :: more) with
          | some (attrSrc, innerOpt, after) =>
            some (⟨tag, parseAttrs attrSrc, innerOpt,
              cs.take (cs.length - after.length)⟩, after)
          | none => none
        else none
      | [] => none
    else none
  | _ => none

/-- The `elementRe.exec` while-loop: collect the matches left to right
(text between matches is skipped and therefore dropped from the
rebuilt output exactly as in the source). -/
def scanElems : Nat → List Char → List Elem
  | 0, _ => []
  | _ + 1, [] => []
  | fuel + 1, c :: cs =>
    match matchElementAt (c :: cs) with
    | some (e, rest) => e :: scanElems fuel rest
    | none => scanElems fuel cs

/-! ## `deduplicateSVG` (code.ts lines 310-436) -/

/-- The seen-set loop over the scanned elements.  The source interleaves
scanning and dropping, but drops never move the scan position, so
scanning first and filtering second is the same function. -/
def dedupElemsFrom (seen : List (List Char)) : List Elem → List Elem
  | [] => []
  | e :: es =>
    if isSafeElem e then
      if seen.contains (elemKey e) then dedupElemsFrom seen es
      else e :: dedupElemsFrom (elemKey e :: seen) es
    else e :: dedupElemsFrom seen es

def dedupElems (es : List Elem) : List Elem := dedupElemsFrom [] es

/-- The anchored opening-tag regex `<svg` with word boundary and
attribute span (case-insensitive), applied at the start of the string;
returns the matched text. -/
def matchSvgOpen (s : List Char) : Option (List Char) :=
  match s with
  | a :: b :: c :: d :: rest =>
    if a == '<' && jsToLower b == 's' && jsToLower c == 'v' &&
        jsToLower d == 'g' &&
        (match rest with | [] => true | e :: _ => !jsWordChar e) then
      match splitAtChar? '>' rest with
      | some (attrsPart, _) => some ([a, b, c, d] ++ attrsPart ++ ['>'])
      | none => none
    else none
  | _ => none

def deduplicateSVG (s : List Char) : List Char :=
  match matchSvgOpen s with
  | none => s
  | some svgOpen =>
    let start := svgOpen.length
    match lastIndexOfSub s "</svg>".data with
    | none => s
    | some e =>
      if e < start then s
      else
        let body := (s.drop start).take (e - start)
        let out := dedupElems (scanElems (body.length + 1) body)
        svgOpen ++ (out.map Elem.raw).flatten ++ "</svg>".data

/-! ## `normalizeSVG` (code.ts lines 267-303) -/

/-- Global replace of gt-whitespace-lt by gt-lt. -/
def gtLtCollapse : Nat → List Char → List Char
  | 0, cs => cs
  | _ + 1, [] => []
  | fuel + 1, c :: cs =>
    if c == '>' then
      match cs with
      | d :: _ =>
        if jsWs d then
          match cs.dropWhile jsWs with
          | '<' :: rest2 => '>' :: '<' :: gtLtCollapse fuel rest2
          | _ => '>' :: gtLtCollapse fuel cs
        else '>' :: gtLtCollapse fuel cs
      | [] => ['>']
    else c :: gtLtCollapse fuel cs

/-- The unanchored `<svg` opening-tag regex with word boundary and
captured attribute span, tried at the current position; returns the
capture group and the remaining input. -/
def matchSvgTagAt (s : List Char) : Option (List Char × List Char) :=
  match s with
  | a :: b :: c :: d :: rest =>
    if a == '<' && jsToLower b == 's' && jsToLower c == 'v' &&
        jsToLower d == 'g' &&
        (match rest with | [] => true | e :: _ => !jsWordChar e) then
      splitAtChar? '>' rest
    else none
  | _ => none

/-- Non-global replace: insert a viewBox into the first `<svg ...>` tag
(the replacement template writes a lowercase `<svg` literally). -/
def attachViewBox : Nat → List Char → List Char
  | 0, cs => cs
  | _ + 1, [] => []
  | fuel + 1, c :: cs =>
    match matchSvgTagAt (c :: cs) with
    | some (g1, after) =>
      "<svg".data ++ g1 ++ " viewBox=\"0 0 24 24\"".data ++ ['>'] ++ after
    | none => c :: attachViewBox fuel cs

/-- The existing-viewBox regex (case-insensitive) tried at the current
position; returns the remaining input after the match. -/
def matchViewBoxAt (s : List Char) : Option (List Char) :=
  if startsWithListCI "viewBox".data s then
    match (s.drop 7).dropWhile jsWs with
    | '=' :: r2 =>
      match r2.dropWhile jsWs with
      | q :: r4 =>
        if q == '"' || q == '\'' then
          match splitAtAnyQuote? r4 with
          | some (_, post) => some post
          | none => none
        else none
      | [] => none
    | _ => none
  else none

/-- Non-global replace of the first viewBox attribute value by the
required one. -/
def replaceViewBox : Nat → List Char → List Char
  | 0, cs => cs
  | _ + 1, [] => []
  | fuel + 1, c :: cs =>
    match matchViewBoxAt (c :: cs) with
    | some after => "viewBox=\"0 0 24 24\"".data ++ after
    | none => c :: replaceViewBox fuel cs

/-- One attempt of the attribute-stripping regex (leading whitespace,
case-insensitive fixed name, equals sign, quoted value) at the current
position. -/
def matchStripAttrAt (name : List Char) (s : List Char) : Option (List Char) :=
  match s with
  | [] => none
  | c :: cs =>
    if jsWs c then
      let rest := cs.dropWhile jsWs
      if startsWithListCI name rest then
        match (rest.drop name.length).dropWhile jsWs with
        | '=' :: r2 =>
          match r2.dropWhile jsWs with
          | q :: r4 =>
            if q == '"' || q == '\'' then
              match splitAtAnyQuote? r4 with
              | some (_, post) => some post
              | none => none
            else none
          | [] => none
        | _ => none
      else none
    else none

/-- One attempt of the data-attribute-stripping regex: leading
whitespace, `data-`, anything up to the first equals sign, then a
quoted value. -/
def matchStripDataAt (s : List Char) : Option (List Char) :=
  match s with
  | [] => none
  | c :: cs =>
    if jsWs c then
      let rest := cs.dropWhile jsWs
      if startsWithListCI "data-".data rest then
        match splitAtChar? '=' (rest.drop 5) with
        | some (_, r2) =>
          match r2.dropWhile jsWs with
          | q :: r4 =>
            if q == '"' || q == '\'' then
              match splitAtAnyQuote? r4 with
              | some (_, post) => some post
              | none => none
            else none
          | [] => none
        | none => none
      else none
    else none

/-- Global strip loop for a given single-position matcher. -/
def stripAttrGo (matcher : List Char → Option (List Char)) :
    Nat → List Char → List Char
  | 0, cs => cs
  | _ + 1, [] => []
  | fuel + 1, c :: cs =>
    match matcher (c :: cs) with
    | some rest => stripAttrGo matcher fuel rest
    | none => c :: stripAttrGo matcher fuel cs

/-- `normalizeSVG` from code.ts lines 267-303 (the body of the `try`;
the model is total, so the `catch` branch is unreachable). -/
def normalizeSVG (s : List Char) : List Char :=
  let n0 := wsCollapse s
  let n1 := jsTrim (gtLtCollapse (n0.length + 1) n0)
  let n2 :=
    if containsList n1 "viewBox=".data then replaceViewBox (n1.length + 1) n1
    else attachViewBox (n1.length + 1) n1
  let n3 := stripAttrGo (matchStripAttrAt "id".data) (n2.length + 1) n2
  let n4 := stripAttrGo (matchStripAttrAt "class".data) (n3.length + 1) n3
  let n5 := stripAttrGo matchStripDataAt (n4.length + 1) n4
  jsTrim (wsCollapse n5)

/-- The canonicalization pipeline as used by `processIconGroup`:
dedup, then normalize. -/
def canonicalize (s : List Char) : List Char :=
  normalizeSVG (deduplicateSVG s)

/-! ## `validateSVG` (code.ts lines 441-477) -/

structure Variant where
  weight : List Char
  duotone : Bool
deriving DecidableEq

structure ValidationResult where
  isValid : Bool
  errors : List (List Char)
deriving DecidableEq

/-- Count the non-overlapping matches of the opening-tag counting regex
(lt, `svg` case-insensitive, anything up to gt). -/
def matchSvgCountAt (s : List Char) : Option (List Char) :=
  if startsWithListCI "<svg".data s then
    match splitAtChar? '>' (s.drop 4) with
    | some (_, after) => some after
    | none => none
  else none

def countSvgOpenGo : Nat → List Char → Nat
  | 0, _ => 0
  | _ + 1, [] => 0
  | fuel + 1, c :: cs =>
    match matchSvgCountAt (c :: cs) with
    | some rest => 1 + countSvgOpenGo fuel rest
    | none => countSvgOpenGo fuel cs

/-- Count the non-overlapping occurrences of the closing tag
(case-insensitive). -/
def countCloseGo : Nat → List Char → Nat
  | 0, _ => 0
  | _ + 1, [] => 0
  | fuel + 1, c :: cs =>
    if startsWithListCI "</svg>".data (c :: cs) then
      1 + countCloseGo fuel ((c :: cs).drop 6)
    else countCloseGo fuel cs

def isHexDigitChar (c : Char) : Bool :=
  isAsciiDigit c || (97 ≤ c.toNat && c.toNat ≤ 102) ||
    (65 ≤ c.toNat && c.toNat ≤ 70)

/-- The fixed-hex-fill regex (`fill`, equals, quote, hash, three to six
hex digits, quote) tried at the current position. -/
def matchHexFillAt (s : List Char) : Bool :=
  if startsWithList "fill".data s then
    match (s.drop 4).dropWhile jsWs with
    | '=' :: r2 =>
      match r2.dropWhile jsWs with
      | q :: '#' :: r4 =>
        (q == '"' || q == '\'') &&
          (let d := takeRun isHexDigitChar r4
           3 ≤ d.1.length && d.1.length ≤ 6 &&
             (match d.2 with
              | q2 :: _ => q2 == '"' || q2 == '\''
              | [] => false))
      | _ => false
    | _ => false
  else false

def testHexFill : Nat → List Char → Bool
  | 0, _ => false
  | _ + 1, [] => false
  | fuel + 1, c :: cs => matchHexFillAt (c :: cs) || testHexFill fuel cs

def boolToChars : Bool → List Char
  | true => "true".data
  | false => "false".data

/-- `validateSVG` from code.ts lines 441-477: four structural checks and
one color-policy check that runs only for non-duotone variants; the
error list collects every failing check in order and `isValid` is the
emptiness of that list. -/
def validateSVG (svg : List Char) (variant : Variant) : ValidationResult :=
  let e1 :=
    if !startsWithList "<svg".data (jsTrim svg) then
      ["SVG does not start with <svg tag".data] else []
  let e2 :=
    if !endsWithList "</svg>".data (jsTrim svg) then
      ["SVG does not end with </svg> tag".data] else []
  let openTags := countSvgOpenGo (svg.length + 1) svg
  let closeTags := countCloseGo (svg.length + 1) svg
  let e3 :=
    if openTags ≠ closeTags then
      ["SVG tag mismatch: ".data ++ natToChars openTags ++
        " opening tags, ".data ++ natToChars closeTags ++
        " closing tags".data]
    else []
  let e4 :=
    if !containsList svg "viewBox=\"0 0 24 24\"".data then
      ["Missing or incorrect viewBox. Expected: \"0 0 24 24\"".data] else []
  let e5 :=
    if !variant.duotone && testHexFill (svg.length + 1) svg then
      ["Non-duotone variant (weight: \"".data ++ variant.weight ++
        "\", duotone: ".data ++ boolToChars variant.duotone ++
        ") should not contain fixed hex colors (fill=\"#...\")".data]
    else []
  let errors := e1 ++ e2 ++ e3 ++ e4 ++ e5
  ⟨errors.isEmpty, errors⟩

/-- Modelled from the amended claim (C3): the four structural checks of
`validateSVG` and their messages, independent of the variant. -/
def structuralErrors (svg : List Char) : List (List Char) :=
  (if !startsWithList "<svg".data (jsTrim svg) then
    ["SVG does not start with <svg tag".data] else []) ++
  (if !endsWithList "</svg>".data (jsTrim svg) then
    ["SVG does not end with </svg> tag".data] else []) ++
  (if countSvgOpenGo (svg.length + 1) svg ≠ countCloseGo (svg.length + 1) svg then
    ["SVG tag mismatch: ".data ++ natToChars (countSvgOpenGo (svg.length + 1) svg) ++
      " opening tags, ".data ++ natToChars (countCloseGo (svg.length + 1) svg) ++
      " closing tags".data]
  else []) ++
  (if !containsList svg "viewBox=\"0 0 24 24\"".data then
    ["Missing or incorrect viewBox. Expected: \"0 0 24 24\"".data] else [])

/-- The hex-fill error message for a non-duotone variant. -/
def hexFillMsg (w : List Char) : List Char :=
  "Non-duotone variant (weight: \"".data ++ w ++ "\", duotone: ".data ++
    boolToChars false ++
    ") should not contain fixed hex colors (fill=\"#...\")".data

/-- A canonical SVG with no opacity marker of any form. -/
def duotoneNoMarkerSvg : List Char := "<svg viewBox=\"0 0 24 24\"></svg>".data

/-- Duplicate shapes masked by a truthy id attribute: ineligible for
dedup on the first pass, eligible after normalization strips the ids. -/
def svgWithMaskedDup : List Char :=
  "<svg viewBox=\"0 0 24 24\"><rect width=\"2\" id=\"a\"/><rect width=\"2\" id=\"a\"/></svg>".data

/-- A string fixed by both canonicalization passes. -/
def svgFixedPoint : List Char :=
  "<svg viewBox=\"0 0 24 24\"><rect width=\"2\"/></svg>".data

/-! ## Name and variant resolution (code.ts lines 58-163) -/

def NAME_SEPARATORS : List (List Char) := ["/".data, "=".data, " - ".data]

def ALLOWED_WEIGHTS : List (List Char) := ["Regular".data, "Bold".data, "Fill".data]

/-- `extractBaseName`: split on the first separator (in priority order)
that occurs, keep the trimmed prefix. -/
def extractBaseName (rawName : List Char) : List Char :=
  match NAME_SEPARATORS.find? (fun sep => containsList rawName sep) with
  | some sep => jsTrim (((jsSplit rawName sep).head?).getD [])
  | none => jsTrim rawName

/-- A component as the plugin reads it from the page: identifier,
display name, optional structured variant properties, resolved plain
description, and the markup its export call yields.  (The
markdown-description and parent-set fallbacks of the tag resolution are
outside every claim and are represented by the already-resolved
`description` field.) -/
structure ComponentNode where
  id : List Char
  name : List Char
  variantProperties : Option (List (List Char × List Char))
  description : List Char
  svgExport : List Char
deriving DecidableEq

/-- `getProp`: case-insensitive property lookup, first matching key in
insertion order. -/
def getProp (props : Option (List (List Char × List Char)))
    (propName : List Char) : Option (List Char) :=
  match props with
  | none => none
  | some kvs =>
    match kvs.find? (fun kv => lowerStr kv.1 == lowerStr propName) with
    | some kv => some kv.2
    | none => none

/-- JavaScript `a || b || c` over possibly-absent strings: the first
truthy value, else `none` (an all-falsy chain never passes the
truthiness guard that follows it). -/
def firstTruthy : List (Option (List Char)) → Option (List Char)
  | [] => none
  | o :: os => if truthy o then o else firstTruthy os

/-- Weight normalization inside the property branch of
`deriveVariant`: exact case-insensitive match against the allowed
weights first, then the substring heuristics; otherwise the weight is
left unchanged. -/
def weightFromValue (weightValue current : List Char) : List Char :=
  let normalizedWeight := jsTrim weightValue
  match ALLOWED_WEIGHTS.find? (fun w => lowerStr w == lowerStr normalizedWeight) with
  | some w => w
  | none =>
    let lowerValue := lowerStr normalizedWeight
    if containsList lowerValue "bold".data then "Bold".data
    else if containsList lowerValue "fill".data then "Fill".data
    else if containsList lowerValue "regular".data ||
        containsList lowerValue "line".data then "Regular".data
    else current

/-- Duotone parsing: trimmed lowercased value in true/yes/1. -/
def duotoneFromValue (duotoneValue : List Char) : Bool :=
  let n := lowerStr (jsTrim duotoneValue)
  n == "true".data || n == "yes".data || n == "1".data

/-- The weight/duotone pair extracted from the variant properties alone
(the part of `deriveVariant` before the name fallback). -/
def propDerive (props : Option (List (List Char × List Char))) : Variant :=
  match props with
  | none => ⟨"Regular".data, false⟩
  | some _ =>
    let weightValue := firstTruthy
      [getProp props "Weight".data, getProp props "Style".data,
        getProp props "Variant".data]
    let weight :=
      match weightValue with
      | some wv => weightFromValue wv "Regular".data
      | none => "Regular".data
    let duotone :=
      match getProp props "Duotone".data with
      | some dv => if dv.isEmpty then false else duotoneFromValue dv
      | none => false
    ⟨weight, duotone⟩

/-- The name-fallback pass of `deriveVariant` (code.ts lines 119-160):
whole-name keyword search, then re-derivation from the last part after
the first separator that occurs, overwriting earlier guesses. -/
def fallbackFromName (start : Variant) (fullName : List Char) : Variant :=
  let nameLower := lowerStr fullName
  let d1 :=
    if containsList nameLower "duotone".data ||
        containsList nameLower "tone".data then true
    else start.duotone
  let w1 :=
    if containsList nameLower "bold".data then "Bold".data
    else if containsList nameLower "fill".data then "Fill".data
    else if containsList nameLower "regular".data ||
        containsList nameLower "line".data then "Regular".data
    else start.weight
  match NAME_SEPARATORS.find? (fun sep => containsList fullName sep) with
  | none => ⟨w1, d1⟩
  | some sep =>
    let parts := jsSplit fullName sep
    let lastPart := lowerStr (jsTrim ((parts.getLast?).getD []))
    let w2 :=
      if containsList lastPart "bold".data then "Bold".data
      else if containsList lastPart "fill".data then "Fill".data
      else if containsList lastPart "regular".data ||
          containsList lastPart "line".data then "Regular".data
      else w1
    let d2 :=
      if containsList lastPart "duotone".data ||
          containsList lastPart "tone".data then true
      else d1
    ⟨w2, d2⟩

/-- The condition under which the name fallback runs (code.ts line
120): no properties at all, or neither a truthy `Weight` nor a truthy
`Duotone` entry. -/
def fallbackCond (props : Option (List (List Char × List Char))) : Bool :=
  props.isNone ||
    (!truthy (getProp props "Weight".data) &&
      !truthy (getProp props "Duotone".data))

/-- `deriveVariant` from code.ts lines 73-163 (its `baseName` parameter
is unused in the source body and is omitted). -/
def deriveVariant (component : ComponentNode) : Variant :=
  let base := propDerive component.variantProperties
  if fallbackCond component.variantProperties then
    fallbackFromName base component.name
  else base

/-! ## Tags (`processTags`, code.ts lines 241-250) -/

def dedupFirstGo (seen : List (List Char)) : List (List Char) → List (List Char)
  | [] => []
  | t :: ts =>
    if seen.contains t then dedupFirstGo seen ts
    else t :: dedupFirstGo (t :: seen) ts

/-- `processTags`: split on commas, trim and lowercase, drop empties,
keep first occurrences, sort (default code-unit string sort). -/
def processTags (tagsString : List Char) : List (List Char) :=
  if tagsString.isEmpty then []
  else
    let cleaned := ((jsSplit tagsString ",".data).map
      (fun t => lowerStr (jsTrim t))).filter (fun t => t.length > 0)
    List.insertionSort (fun a b => strLe a b = true) (dedupFirstGo [] cleaned)

def nameSepChar (c : Char) : Bool := c == '-' || c == '_' || jsWs c

/-- Maximal runs of non-separator characters (`split` on the
hyphen/underscore/whitespace-run regex with empties dropped). -/
def tokensOf : Nat → List Char → List (List Char)
  | 0, _ => []
  | _ + 1, [] => []
  | fuel + 1, c :: cs =>
    if nameSepChar c then tokensOf fuel cs
    else
      let r := takeRun (fun d => !nameSepChar d) (c :: cs)
      r.1 :: tokensOf fuel r.2

/-- The pseudo-tag fallback of `processIconGroup`: base name split into
lowercased tokens joined by comma-space. -/
def nameToTags (baseName : List Char) : List Char :=
  joinSep ", ".data ((tokensOf (baseName.length + 1) baseName).map lowerStr)

/-! ## Variant records and their sort (code.ts lines 629-699) -/

structure IconVariant where
  variant : Variant
  svg : List Char
  hash : List Char
deriving DecidableEq

structure IconData where
  name : List Char
  tags : List (List Char)
  variants : List IconVariant
deriving DecidableEq

/-- `weightOrder[w] ?? 999`.  (`deriveVariant` only ever produces the
three canonical weights, so the JavaScript prototype-chain quirk of the
object lookup is unreachable in the pipeline.) -/
def weightOrderVal (w : List Char) : Nat :=
  if w == "Regular".data then 0
  else if w == "Bold".data then 1
  else if w == "Fill".data then 2
  else 999

def duotoneBit (b : Bool) : Nat := if b then 1 else 0

/-- The sort comparator of `processIconGroup` (code.ts lines 694-699). -/
def variantCmp (a b : IconVariant) : Int :=
  let weightDiff : Int :=
    (weightOrderVal a.variant.weight : Int) - (weightOrderVal b.variant.weight : Int)
  if weightDiff ≠ 0 then weightDiff
  else (duotoneBit a.variant.duotone : Int) - (duotoneBit b.variant.duotone : Int)

def variantLe (a b : IconVariant) : Prop := variantCmp a b ≤ 0

instance : DecidableRel variantLe := fun _ _ => Int.decLe _ _

/-- `variants.sort(cmp)`: a stable sort with respect to the comparator
(Array.prototype.sort is specified stable; insertion sort realizes the
same function). -/
def sortVariants (variants : List IconVariant) : List IconVariant :=
  List.insertionSort variantLe variants

/-! ## `processIconGroup` (code.ts lines 565-706) -/

/-- The per-variant body of the `mapWithConcurrency` call in
`processIconGroup`: derive the variant, check the export result, run
dedup, normalization and hashing.  A thrown error (empty or malformed
markup) is caught and becomes `null`, i.e. `none`.  The `validateSVG`
call only logs, so it does not appear in the value. -/
def exportVariant (component : ComponentNode) : Option IconVariant :=
  let variant := deriveVariant component
  let svgString := component.svgExport
  if svgString.isEmpty then none
  else
    let trimmedSvg := jsTrim svgString
    if !startsWithList "<svg".data trimmedSvg then none
    else
      let deduplicatedSvg := deduplicateSVG trimmedSvg
      let normalizedSvg := normalizeSVG deduplicatedSvg
      some ⟨variant, normalizedSvg, generateHashStr normalizedSvg⟩

/-- `processIconGroup`: tags from the first component's description
(else pseudo-tags from the base name), variants exported per component
with failures dropped, then sorted; the icon name is the kebab-cased
base name. -/
def processIconGroup (baseName : List Char)
    (components : List ComponentNode) : IconData :=
  let description := ((components.head?).map ComponentNode.description).getD []
  let tagsString :=
    if !description.isEmpty then description
    else if !baseName.isEmpty then nameToTags baseName
    else []
  let tags := processTags tagsString
  let variants := (components.map exportVariant).reduceOption
  ⟨toKebabCase baseName, tags, sortVariants variants⟩

/-! ## Export orchestration (code.ts lines 486-560 and 711-926) -/

structure ComponentSetNode where
  name : List Char
  children : List ComponentNode
deriving DecidableEq

/-- `collectComponentSetChildIds`. -/
def collectComponentSetChildIds (componentSets : List ComponentSetNode) :
    List (List Char) :=
  (componentSets.map (fun s => s.children.map ComponentNode.id)).flatten

/-- `nameCounts.set(baseName, (nameCounts.get(baseName) || 0) + 1)` on a
Map modelled as an insertion-ordered association list. -/
def setCount : List (List Char × Nat) → List Char → List (List Char × Nat)
  | [], k => [(k, 1)]
  | (k0, c) :: rest, k =>
    if k0 = k then (k0, c + 1) :: rest else (k0, c) :: setCount rest k

/-- `bumpCount`: skip falsy (empty) raw names, count the derived base
name. -/
def bumpCount (m : List (List Char × Nat)) (rawName : List Char) :
    List (List Char × Nat) :=
  if rawName.isEmpty then m else setCount m (extractBaseName rawName)

/-- `checkForDuplicateNames` from code.ts lines 537-560: count base
names of component sets and of components outside every set, return the
names counted more than once (in first-seen order). -/
def checkForDuplicateNames (componentSets : List ComponentSetNode)
    (components : List ComponentNode) (childIds : List (List Char)) :
    List (List Char) :=
  let m1 := componentSets.foldl (fun m s => bumpCount m s.name) []
  let m2 := (components.filter (fun c => !childIds.contains c.id)).foldl
    (fun m c => bumpCount m c.name) m1
  (m2.filter (fun kv => kv.2 > 1)).map Prod.fst

/-- `groupComponentsByBaseName`: an insertion-ordered object of groups.
(For purely numeric base names JavaScript would reorder object keys;
no claim depends on group order.) -/
def groupInsert (groups : List (List Char × List ComponentNode))
    (k : List Char) (c : ComponentNode) :
    List (List Char × List ComponentNode) :=
  match groups with
  | [] => [(k, [c])]
  | (k0, g) :: rest =>
    if k0 = k then (k0, g ++ [c]) :: rest else (k0, g) :: groupInsert rest k c

def groupComponentsByBaseName (components : List ComponentNode) :
    List (List Char × List ComponentNode) :=
  components.foldl (fun gs c => groupInsert gs (extractBaseName c.name) c) []

structure IconsExport where
  schemaVersion : List Char
  exportedAt : List Char
  totalIcons : Nat
  icons : List IconData
deriving DecidableEq

/-- Messages posted to the UI collaborator.  The save message carries
the export document; its JSON serialization happens at the UI boundary
and is outside the model. -/
inductive Msg where
  | status : List Char → Msg
  | progress : List Char → Msg
  | success : List Char → Msg
  | error : List Char → Msg
  | save : IconsExport → Msg
deriving DecidableEq

def Msg.isSave : Msg → Bool
  | Msg.save _ => true
  | _ => false

/-- `saveIconsExport`: icons sorted alphabetically by name
(`localeCompare` modelled as code-unit order; exported names are
kebab-cased ASCII, where the two agree), wrapped in the versioned
document. -/
def saveIconsExport (now : List Char) (iconsData : List IconData) : Msg :=
  let sortedIcons := List.insertionSort
    (fun a b : IconData => strLe a.name b.name = true) iconsData
  Msg.save ⟨"2.0.0".data, now, sortedIcons.length, sortedIcons⟩

/-- The duplicate-name notification text of `exportIcons` (code.ts
lines 774-781). -/
def dupErrorMessage (duplicateNames : List (List Char)) : List Char :=
  let label :=
    if duplicateNames.length > 1 then "Duplicates".data else "Duplicate".data
  label ++ ": ".data ++ joinSep ", ".data duplicateNames

/-- The observable outcome of a run: the UI messages posted in order
and the blocking notifications shown. -/
structure RunResult where
  messages : List Msg
  notifications : List (List Char)
deriving DecidableEq

/-- `exportIcons` from code.ts lines 750-926, over the component sets
and the component list produced by the page traversal.  Per-item
progress messages are elided (free text with no effect on any claim);
the status, save and success messages are kept.  The cooperative
`yieldToFigma` suspensions do not change any value and do not appear. -/
def exportIcons (now : List Char) (componentSets : List ComponentSetNode)
    (components : List ComponentNode) : RunResult :=
  if components.isEmpty && componentSets.isEmpty then
    ⟨[Msg.status "Scanning page for icon components...".data,
      Msg.error "No components or component sets found on the current page".data], []⟩
  else
    let childIds := collectComponentSetChildIds componentSets
    let duplicateNames := checkForDuplicateNames componentSets components childIds
    if !duplicateNames.isEmpty then
      ⟨[Msg.status "Scanning page for icon components...".data],
        [dupErrorMessage duplicateNames]⟩
    else
      let totalItems := componentSets.length + components.length
      let setIcons := (componentSets.filter (fun s => !s.children.isEmpty)).map
        (fun s => processIconGroup s.name s.children)
      let individualComponents :=
        components.filter (fun c => !childIds.contains c.id)
      let groupIcons := (groupComponentsByBaseName individualComponents).map
        (fun g => processIconGroup g.1 g.2)
      let iconsData := setIcons ++ groupIcons
      ⟨[Msg.status "Scanning page for icon components...".data,
        Msg.status ("Found ".data ++ natToChars totalItems ++
          " icon components to process...".data),
        Msg.status "Generating JSON export file...".data,
        Msg.progress "Generating JSON export (90%)".data,
        saveIconsExport now iconsData,
        Msg.progress "Export complete (100%)".data,
        Msg.success ("Successfully exported ".data ++
          natToChars iconsData.length ++ " icons".data)], []⟩

/-! ## `mapWithConcurrency` (code.ts lines 165-187)

The worker pool runs on a single event loop; scheduling nondeterminism
is modelled by an explicit schedule (the sequence of worker indices
that run at each suspension point).  A checking worker atomically tests
`nextIndex < items.length` and claims `nextIndex++` (no `await` between
them); a worker holding index `i` writes `results[i]` and returns to
the loop head. -/

inductive WStatus where
  | check : WStatus
  | pend : Nat → WStatus
  | done : WStatus
deriving DecidableEq

structure PoolState (β : Type) where
  next : Nat
  res : List (Option β)
  workers : List WStatus
deriving DecidableEq

def poolStepAt {β : Type} (n : Nat) (g : Nat → β) (s : PoolState β)
    (w : Nat) : WStatus → PoolState β
  | WStatus.check =>
    if s.next < n then
      ⟨s.next + 1, s.res, s.workers.set w (WStatus.pend s.next)⟩
    else ⟨s.next, s.res, s.workers.set w WStatus.done⟩
  | WStatus.pend i =>
    ⟨s.next, s.res.set i (some (g i)), s.workers.set w WStatus.check⟩
  | WStatus.done => s

def poolStep {β : Type} (n : Nat) (g : Nat → β) (s : PoolState β)
    (w : Nat) : PoolState β :=
  match s.workers[w]? with
  | none => s
  | some st => poolStepAt n g s w st

def poolRun {β : Type} (n : Nat) (g : Nat → β) (sched : List Nat)
    (s : PoolState β) : PoolState β :=
  sched.foldl (poolStep n g) s

def poolInit (β : Type) (k n : Nat) : PoolState β :=
  ⟨0, List.replicate n none, List.replicate k WStatus.check⟩

def allDone {β : Type} (s : PoolState β) : Bool :=
  s.workers.all (fun w => w == WStatus.done)

/-- `mapWithConcurrency` under a given schedule: `some` of the filled
result array when every worker has finished, `none` when the schedule
stops early. -/
def mapWithConcurrency {α β : Type} [Inhabited α] (items : List α)
    (limit : Nat) (f : α → Nat → β) (sched : List Nat) : Option (List β) :=
  if items.length = 0 then some []
  else
    let concurrency := max 1 (min limit items.length)
    let final := poolRun items.length (fun i => f (items.getD i default) i)
      sched (poolInit β concurrency items.length)
    if allDone final then some final.res.reduceOption else none

/-! ## Claim-side eligibility predicates for the dedup safety claim -/

/-- The risky-attribute list as the claim words it (seven names, no
`clipPath`). -/
def claimRiskyList : List (List Char) :=
  ["id".data, "class".data, "style".data, "filter".data, "mask".data,
    "clip-path".data, "transform".data]

/-- Modelled from the claim (C1) as written: the element has no child
content (self-closing or empty inner text), its tag is in the shape
set, it carries none of the seven listed risky attributes, no attribute
value references `url(#`, every opacity-family attribute is absent or
denotes exactly 0 or 1 (the decimal forms the opacity regex accepts),
and stroke is absent or `none`. -/
def claimEligible (e : Elem) : Bool :=
  (e.inner == none || e.inner == some []) &&
  SHAPE_TAGS.contains (lowerStr (stripNs e.tag)) &&
  claimRiskyList.all (fun r => (getAttr e.attrs r).isNone) &&
  e.attrs.all (fun kv => !containsUrlRef kv.2) &&
  fullOpacity e.attrs "opacity".data &&
  fullOpacity e.attrs "fill-opacity".data &&
  fullOpacity e.attrs "stroke-opacity".data &&
  (match getAttr e.attrs "stroke".data with
   | none => true
   | some v => v == "none".data)

/-- Modelled from the amended claim: the element must be of the
self-closing form (an empty-paired element is never removed), and a
risky attribute (now the full eight-name list including `clipPath`)
blocks removal only when its value is nonempty. -/
def amendedEligible (e : Elem) : Bool :=
  e.inner == none &&
  SHAPE_TAGS.contains (lowerStr (stripNs e.tag)) &&
  RISKY_ATTRIBUTES.all (fun r => !truthy (getAttr e.attrs r)) &&
  e.attrs.all (fun kv => !containsUrlRef kv.2) &&
  fullOpacity e.attrs "opacity".data &&
  fullOpacity e.attrs "fill-opacity".data &&
  fullOpacity e.attrs "stroke-opacity".data &&
  (match getAttr e.attrs "stroke".data with
   | none => true
   | some v => v == "none".data)

/-- Concrete elements exhibiting the divergences between the claim and
the code (these are exactly the elements the scanner parses out of the
counterexample strings). -/
def elemEmptyPaired : Elem :=
  ⟨"rect".data, [("width".data, "2".data)], some [],
    "<rect width=\"2\"></rect>".data⟩

def elemEmptyId : Elem :=
  ⟨"rect".data, [("width".data, "2".data), ("id".data, [])], none,
    "<rect width=\"2\" id=\"\"/>".data⟩

def elemClipPath : Elem :=
  ⟨"rect".data, [("clipPath".data, "x".data)], none,
    "<rect clipPath=\"x\"/>".data⟩

/-- Modelled from the spec (§4.1, claim C7): the keyword-derived weight
of a (lowercased) string, in the documented priority: bold, then fill,
then regular or line. -/
def keywordWeight (s : List Char) : Option (List Char) :=
  if containsList s "bold".data then some "Bold".data
  else if containsList s "fill".data then some "Fill".data
  else if containsList s "regular".data || containsList s "line".data then
    some "Regular".data
  else none

/-- Modelled from the spec: the duotone/tone keyword signal. -/
def keywordDuotone (s : List Char) : Bool :=
  containsList s "duotone".data || containsList s "tone".data

/-- Modelled from the spec: the trimmed lowercased suffix after the
first recognized separator, when one occurs. -/
def sepLastPart (fullName : List Char) : Option (List Char) :=
  match NAME_SEPARATORS.find? (fun sep => containsList fullName sep) with
  | none => none
  | some sep => some (lowerStr (jsTrim (((jsSplit fullName sep).getLast?).getD [])))

/-- A component whose properties provide a weight but no duotone entry,
with a tone keyword in its display name. -/
def sampleFallbackComponent : ComponentNode :=
  ⟨"1".data, "icon/duotone".data, none, [], []⟩

/-- Lookup in the insertion-ordered count map (`nameCounts.get || 0`). -/
def lookupCount : List (List Char × Nat) → List Char → Nat
  | [], _ => 0
  | (k, c) :: rest, n => if k = n then c else lookupCount rest n

/-- Modelled from the amended claim (C5): the multiset of base names the
duplicate check counts — base names derived from component-set names
and from the names of components outside every set, skipping empty raw
names. -/
def countedBaseNames (componentSets : List ComponentSetNode)
    (components : List ComponentNode) (childIds : List (List Char)) :
    List (List Char) :=
  ((componentSets.map ComponentSetNode.name ++
      (components.filter (fun c => !childIds.contains c.id)).map
        ComponentNode.name).filter
    (fun r => !r.isEmpty)).map extractBaseName

/-- Two component sets with the same name (the spec's abort scenario). -/
def starSetA : ComponentSetNode := ⟨"star".data, []⟩

def starSetB : ComponentSetNode := ⟨"star".data, []⟩

/-- A set whose raw name equals the base name of a loose component. -/
def cexSet : ComponentSetNode := ⟨"a=b".data, []⟩

def cexComp : ComponentNode :=
  ⟨"i1".data, "a=b/c".data, none, [],
    "<svg viewBox=\"0 0 24 24\"></svg>".data⟩

/-- Two components with empty raw names. -/
def cexEmptyNameA : ComponentNode :=
  ⟨"e1".data, [], none, [], "<svg viewBox=\"0 0 24 24\"></svg>".data⟩

def cexEmptyNameB : ComponentNode :=
  ⟨"e2".data, [], none, [], "<svg viewBox=\"0 0 24 24\"></svg>".data⟩

/-- The pool invariant: the cursor never exceeds the item count, the
result array keeps its size, worker count is fixed, a claimed index is
below the cursor, every index below the cursor is written correctly or
still claimed by some worker, and a finished worker implies the cursor
is exhausted. -/
def PoolInv {β : Type} (n k : Nat) (g : Nat → β) (s : PoolState β) : Prop :=
  s.next ≤ n ∧
  s.res.length = n ∧
  s.workers.length = k ∧
  (∀ i : Nat, WStatus.pend i ∈ s.workers → i < s.next) ∧
  (∀ i : Nat, i < s.next →
    s.res[i]? = some (some (g i)) ∨ WStatus.pend i ∈ s.workers) ∧
  (WStatus.done ∈ s.workers → s.next = n)

/-! # Theorems -/

/-! ## Theorems about the hasher -/

theorem hashStep_eq_specHashStep (h : Int) (c : Nat) :
    hashStep h c = specHashStep h c := by
  unfold hashStep specHashStep toInt32; omega

theorem hashLoop_eq_specHashLoop (l : List Nat) :
    ∀ h : Int, hashLoop h l = specHashLoop h l := by
  induction l with
  | nil => intro h; rfl
  | cons c cs ih =>
    intro h
    simp only [hashLoop, specHashLoop, hashStep_eq_specHashStep]
    exact ih _

/-! ## Theorems about `toKebabCase` -/

theorem mem_kebabCamel {c : Char} :
    ∀ {l : List Char}, c ∈ kebabCamel l → c ∈ l ∨ c = '-' := by
  intro l
  induction l using kebabCamel.induct with
  | case1 a b rest h ih =>
    intro hm
    simp only [kebabCamel, h, if_true, List.mem_cons] at hm
    rcases hm with rfl | rfl | rfl | hm
    · exact Or.inl (by simp)
    · exact Or.inr rfl
    · exact Or.inl (by simp)
    · rcases ih hm with hin | hd
      · exact Or.inl (by simp [hin])
      · exact Or.inr hd
  | case2 a b rest h ih =>
    intro hm
    simp only [kebabCamel, h, Bool.false_eq_true, if_false, List.mem_cons] at hm
    rcases hm with rfl | hm
    · exact Or.inl (by simp)
    · rcases ih hm with hin | hd
      · exact Or.inl (by simp [hin])
      · exact Or.inr hd
  | case3 l h1 =>
    intro hm
    exact Or.inl (by simpa [kebabCamel] using hm)

theorem mem_kebabSpacesGo {c : Char} :
    ∀ (l : List Char) (b : Bool), c ∈ kebabSpacesGo b l → c ∈ l ∨ c = '-' := by
  intro l
  induction l with
  | nil => intro b hm; cases b <;> simp [kebabSpacesGo] at hm
  | cons a cs ih =>
    intro b hm
    by_cases h : (jsWs a || a == '_') = true
    · cases b with
      | true =>
        simp only [kebabSpacesGo, h, if_true] at hm
        rcases ih true hm with hin | hd
        · exact Or.inl (List.mem_cons_of_mem _ hin)
        · exact Or.inr hd
      | false =>
        simp only [kebabSpacesGo, h, if_true, List.mem_cons] at hm
        rcases hm with rfl | hm
        · exact Or.inr rfl
        · rcases ih true hm with hin | hd
          · exact Or.inl (List.mem_cons_of_mem _ hin)
          · exact Or.inr hd
    · cases b with
      | true =>
        simp only [kebabSpacesGo, h, Bool.false_eq_true, if_false,
          List.mem_cons] at hm
        rcases hm with rfl | hm
        · exact Or.inl (by simp)
        · rcases ih false hm with hin | hd
          · exact Or.inl (by simp [hin])
          · exact Or.inr hd
      | false =>
        simp only [kebabSpacesGo, h, Bool.false_eq_true, if_false,
          List.mem_cons] at hm
        rcases hm with rfl | hm
        · exact Or.inl (by simp)
        · rcases ih false hm with hin | hd
          · exact Or.inl (by simp [hin])
          · exact Or.inr hd

theorem mem_kebabSpaces {c : Char} {l : List Char}
    (h : c ∈ kebabSpaces l) : c ∈ l ∨ c = '-' :=
  mem_kebabSpacesGo l false h

theorem mem_kebabCollapseGo {c : Char} :
    ∀ (l : List Char) (b : Bool), c ∈ kebabCollapseGo b l → c ∈ l ∨ c = '-' := by
  intro l
  induction l with
  | nil => intro b hm; cases b <;> simp [kebabCollapseGo] at hm
  | cons a cs ih =>
    intro b hm
    by_cases h : (a == '-') = true
    · cases b with
      | true =>
        simp only [kebabCollapseGo, h, if_true] at hm
        rcases ih true hm with hin | hd
        · exact Or.inl (List.mem_cons_of_mem _ hin)
        · exact Or.inr hd
      | false =>
        simp only [kebabCollapseGo, h, if_true, List.mem_cons] at hm
        rcases hm with rfl | hm
        · exact Or.inr rfl
        · rcases ih true hm with hin | hd
          · exact Or.inl (List.mem_cons_of_mem _ hin)
          · exact Or.inr hd
    · cases b with
      | true =>
        simp only [kebabCollapseGo, h, Bool.false_eq_true, if_false,
          List.mem_cons] at hm
        rcases hm with rfl | hm
        · exact Or.inl (by simp)
        · rcases ih false hm with hin | hd
          · exact Or.inl (by simp [hin])
          · exact Or.inr hd
      | false =>
        simp only [kebabCollapseGo, h, Bool.false_eq_true, if_false,
          List.mem_cons] at hm
        rcases hm with rfl | hm
        · exact Or.inl (by simp)
        · rcases ih false hm with hin | hd
          · exact Or.inl (by simp [hin])
          · exact Or.inr hd

theorem mem_kebabCollapse {c : Char} {l : List Char}
    (h : c ∈ kebabCollapse l) : c ∈ l ∨ c = '-' :=
  mem_kebabCollapseGo l false h

theorem noDoubleHyphen_kebabCollapseGo :
    ∀ l : List Char, NoDoubleHyphen (kebabCollapseGo false l) ∧
      NoDoubleHyphen ('-' :: kebabCollapseGo true l) := by
  intro l
  induction l with
  | nil =>
    constructor <;> simp [kebabCollapseGo, NoDoubleHyphen]
  | cons a cs ih =>
    by_cases h : (a == '-') = true
    · constructor
      · simp only [kebabCollapseGo, h, if_true]
        exact ih.2
      · simp only [kebabCollapseGo, h, if_true]
        exact ih.2
    · have ha : ¬ a = '-' := by simpa using h
      have hfalse : NoDoubleHyphen (a :: kebabCollapseGo false cs) := by
        refine List.chain'_cons'.mpr ⟨?_, ih.1⟩
        intro y _ hcon
        exact ha hcon.1
      constructor
      · simpa only [kebabCollapseGo, h, Bool.false_eq_true, if_false]
          using hfalse
      · simp only [kebabCollapseGo, h, Bool.false_eq_true, if_false]
        refine List.chain'_cons'.mpr ⟨?_, hfalse⟩
        intro y hy hcon
        have hya : a = y := by simpa using hy
        exact ha (by rw [hya]; exact hcon.2)

theorem noDoubleHyphen_kebabCollapse (l : List Char) :
    NoDoubleHyphen (kebabCollapse l) :=
  (noDoubleHyphen_kebabCollapseGo l).1

theorem head?_dropLast_eq {α : Type} :
    ∀ (l : List α) {x : α}, l.dropLast.head? = some x → l.head? = some x := by
  intro l
  cases l with
  | nil => intro x hx; simp at hx
  | cons a as =>
    intro x hx
    cases as with
    | nil => simp at hx
    | cons b bs =>
      simp only [List.dropLast_cons₂, List.head?_cons, Option.some.injEq] at hx
      simp [hx]

theorem kebabTrim_props (m : List Char) (hch : NoDoubleHyphen m) :
    NoDoubleHyphen (kebabTrim m) ∧ (kebabTrim m).head? ≠ some '-' ∧
      (kebabTrim m).getLast? ≠ some '-' := by
  unfold kebabTrim
  set l1 := if m.head? = some '-' then m.tail else m with hl1
  have hch1 : NoDoubleHyphen l1 := by
    rw [hl1]
    split
    · exact hch.tail
    · exact hch
  have hhead1 : l1.head? ≠ some '-' := by
    rw [hl1]
    split
    · rename_i hm
      cases m with
      | nil => simp at hm
      | cons a t =>
        simp only [List.head?_cons, Option.some.injEq] at hm
        subst hm
        have h2 := List.chain'_cons'.mp hch
        intro hcon
        simp only [List.tail_cons] at hcon
        exact h2.1 '-' hcon ⟨rfl, rfl⟩
    · rename_i hm
      exact hm
  by_cases hlast : l1.getLast? = some '-'
  · simp only [hlast, if_true]
    have hne : l1 ≠ [] := by
      intro hcon; rw [hcon] at hlast; simp at hlast
    have hdecomp : l1.dropLast ++ [l1.getLast hne] = l1 :=
      List.dropLast_append_getLast hne
    have hlastval : l1.getLast hne = '-' := by
      have h2 := List.getLast?_eq_getLast l1 hne
      rw [h2] at hlast
      exact Option.some.inj hlast
    have hsplit := List.chain'_append.mp (hdecomp ▸ hch1)
    refine ⟨hsplit.1, ?_, ?_⟩
    · intro hcon
      exact hhead1 (head?_dropLast_eq l1 hcon)
    · intro hcon
      have := hsplit.2.2 _ hcon '-' (by simp [hlastval])
      exact this ⟨rfl, rfl⟩
  · simp only [hlast, if_false]
    exact ⟨hch1, hhead1, hlast⟩

theorem jsToLower_of_not_upper {c : Char} (h : isAsciiUpper c = false) :
    jsToLower c = c := by
  simp [jsToLower, h]

theorem kebabCollapseGo_true_all_hyphen :
    ∀ l : List Char, (∀ c ∈ l, c = '-') → kebabCollapseGo true l = [] := by
  intro l
  induction l with
  | nil => intro _; rfl
  | cons a cs ih =>
    intro hall
    have ha : (a == '-') = true := by simp [hall a (by simp)]
    simp only [kebabCollapseGo, ha, if_true]
    exact ih (fun c hc => hall c (by simp [hc]))

theorem kebabCollapse_all_hyphen (l : List Char) (hall : ∀ c ∈ l, c = '-') :
    kebabCollapse l = [] ∨ kebabCollapse l = ['-'] := by
  cases l with
  | nil => exact Or.inl rfl
  | cons a cs =>
    right
    have ha : (a == '-') = true := by simp [hall a (by simp)]
    unfold kebabCollapse
    simp only [kebabCollapseGo, ha, if_true]
    rw [kebabCollapseGo_true_all_hyphen cs (fun c hc => hall c (by simp [hc]))]

theorem kebabTrim_subset (l : List Char) : kebabTrim l ⊆ l := by
  intro c hc
  unfold kebabTrim at hc
  by_cases h1 : l.head? = some '-'
  · rw [if_pos h1] at hc
    by_cases h2 : l.tail.getLast? = some '-'
    · rw [if_pos h2] at hc
      exact (List.tail_sublist l).subset ((List.dropLast_sublist _).subset hc)
    · rw [if_neg h2] at hc
      exact (List.tail_sublist l).subset hc
  · rw [if_neg h1] at hc
    by_cases h2 : l.getLast? = some '-'
    · rw [if_pos h2] at hc
      exact (List.dropLast_sublist _).subset hc
    · rw [if_neg h2] at hc
      exact hc

/-- Sanity vector from the spec (§8): "arrowLeft Icon" becomes
"arrow-left-icon". -/
theorem kebab_vector_one :
    toKebabCase ("arrowLeft Icon".data) = "arrow-left-icon".data := by decide

/-- Sanity vector from the spec (§8): "  Multi--Space  " becomes
"multi-space". -/
theorem kebab_vector_two :
    toKebabCase ("  Multi--Space  ".data) = "multi-space".data := by decide

/-- Sanity vector: the rolling hash of "abc" is 96354, rendered padded. -/
theorem hash_vector : generateHashStr "abc".data = "00017862".data := by decide

/-- C4: for every input string (as its list of UTF-16 code units),
`generateHash` equals the deterministic order-sensitive rolling hash
described by the spec: accumulator `h := (h << 5) - h + code` folded into
a 32-bit signed integer, absolute value rendered as lowercase
hexadecimal left-padded to 8 characters, with the empty string mapping
to the hash of zero. -/
theorem generateHash_matches_spec (input : List Nat) :
    generateHash input = specHash input := by
  unfold generateHash specHash
  rcases input with _ | ⟨c, cs⟩
  · simp
  · simp [hashLoop_eq_specHashLoop]

/-- C10: for every input string, `toKebabCase` returns only lowercase
ASCII letters, digits and hyphens, with no two consecutive hyphens and
no leading or trailing hyphen; an input containing no ASCII
alphanumerics yields the empty string. -/
theorem toKebabCase_shape (s : List Char) :
    (∀ c ∈ toKebabCase s, kebabAllowed c = true)
    ∧ NoDoubleHyphen (toKebabCase s)
    ∧ (toKebabCase s).head? ≠ some '-'
    ∧ (toKebabCase s).getLast? ≠ some '-'
    ∧ ((∀ c ∈ s, isAsciiLetter c = false ∧ isAsciiDigit c = false) →
        toKebabCase s = []) := by
  unfold toKebabCase
  set m4 := ((kebabSpaces (kebabCamel s)).map jsToLower).filter kebabAllowed with hm4
  have htrim := kebabTrim_props (kebabCollapse m4) (noDoubleHyphen_kebabCollapse m4)
  refine ⟨?_, htrim.1, htrim.2.1, htrim.2.2, ?_⟩
  · intro c hc
    have hc2 := kebabTrim_subset _ hc
    rcases mem_kebabCollapse hc2 with hin | hd
    · exact (List.mem_filter.mp hin).2
    · simp [hd, kebabAllowed]
  · intro hno
    have hall : ∀ c ∈ m4, c = '-' := by
      intro c hc
      rw [hm4] at hc
      have hallowed := (List.mem_filter.mp hc).2
      have hmem := (List.mem_filter.mp hc).1
      rcases List.mem_map.mp hmem with ⟨d, hd, rfl⟩
      rcases mem_kebabSpaces hd with hd2 | rfl
      · rcases mem_kebabCamel hd2 with hd3 | rfl
        · have hnod := hno d hd3
          have hup : isAsciiUpper d = false := by
            have := hnod.1
            simp [isAsciiLetter] at this
            exact this.1
          have hlow : isAsciiLower d = false := by
            have h3 := hnod.1
            simp [isAsciiLetter] at h3
            exact h3.2
          rw [jsToLower_of_not_upper hup] at hallowed ⊢
          simp only [kebabAllowed, hlow, hnod.2, Bool.false_or,
            Bool.or_false] at hallowed
          simpa using hallowed
        · decide
      · decide
    rcases kebabCollapse_all_hyphen m4 hall with hz | ho
    · rw [hz]; decide
    · rw [ho]; decide

/-- Witness for C10: a string with no alphanumerics kebab-cases to the
empty string, via the theorem. -/
theorem toKebabCase_shape_witness : toKebabCase ['?', '!'] = [] :=
  (toKebabCase_shape ['?', '!']).2.2.2.2 (by decide)

/-! ## Theorems about the dedup element loop -/

theorem all_not_eq_not_any {α : Type} (p : α → Bool) (l : List α) :
    l.all (fun x => !p x) = !l.any p := by
  induction l with
  | nil => rfl
  | cons a as ih => simp [List.all_cons, List.any_cons, ih, Bool.not_or]

theorem dedupElemsFrom_unsafe_count (e : Elem) (h : isSafeElem e = false)
    (es : List Elem) :
    ∀ seen : List (List Char),
      (dedupElemsFrom seen es).count e = es.count e := by
  induction es with
  | nil => intro seen; rfl
  | cons a as ih =>
    intro seen
    by_cases hsafe : isSafeElem a = true
    · have hne : e ≠ a := by
        intro hcon
        rw [hcon, hsafe] at h
        exact Bool.noConfusion h
      by_cases hseen : seen.contains (elemKey a) = true
      · simp only [dedupElemsFrom, hsafe, hseen, if_true]
        rw [ih seen, List.count_cons]
        simp [hne, Ne.symm hne]
      · simp only [dedupElemsFrom, hsafe, hseen, Bool.false_eq_true, if_false,
          if_true]
        rw [List.count_cons, List.count_cons, ih]
    · simp only [dedupElemsFrom, hsafe, Bool.false_eq_true, if_false]
      rw [List.count_cons, List.count_cons, ih]

theorem dedupElemsFrom_seen_countP (k : List Char) (es : List Elem) :
    ∀ seen : List (List Char), seen.contains k = true →
      (dedupElemsFrom seen es).countP
        (fun x => isSafeElem x && (elemKey x == k)) = 0 := by
  induction es with
  | nil => intro seen _; rfl
  | cons a as ih =>
    intro seen hk
    by_cases hsafe : isSafeElem a = true
    · by_cases hseen : seen.contains (elemKey a) = true
      · simp only [dedupElemsFrom, hsafe, hseen, if_true]
        exact ih seen hk
      · have hne : ¬ (elemKey a == k) = true := by
          intro hcon
          have : elemKey a = k := by simpa using hcon
          rw [this, hk] at hseen
          exact hseen rfl
        have hk2 : k ∈ seen := by simpa using hk
        simp only [dedupElemsFrom, hsafe, hseen, Bool.false_eq_true, if_false,
          if_true]
        rw [List.countP_cons]
        have htail := ih (elemKey a :: seen) (by simp [hk2])
        rw [htail]
        simp [hne]
    · simp only [dedupElemsFrom, hsafe, Bool.false_eq_true, if_false]
      rw [List.countP_cons]
      rw [ih seen hk]
      simp [hsafe]

theorem dedupElemsFrom_fresh_countP (k : List Char) (es : List Elem) :
    ∀ seen : List (List Char), seen.contains k = false →
      (dedupElemsFrom seen es).countP
          (fun x => isSafeElem x && (elemKey x == k)) =
        min 1 (es.countP (fun x => isSafeElem x && (elemKey x == k))) := by
  induction es with
  | nil => intro seen _; rfl
  | cons a as ih =>
    intro seen hk
    by_cases hsafe : isSafeElem a = true
    · by_cases hseen : seen.contains (elemKey a) = true
      · have hne : ¬ (elemKey a == k) = true := by
          intro hcon
          have hke : elemKey a = k := by simpa using hcon
          rw [hke, hk] at hseen
          exact Bool.noConfusion hseen
        simp only [dedupElemsFrom, hsafe, hseen, if_true]
        rw [ih seen hk, List.countP_cons]
        simp [hne]
      · by_cases hkey : elemKey a = k
        · simp only [dedupElemsFrom, hsafe, hseen, Bool.false_eq_true, if_false,
            if_true]
          rw [List.countP_cons, List.countP_cons]
          have h0 := dedupElemsFrom_seen_countP k as (elemKey a :: seen)
            (by simp [hkey])
          rw [h0]
          have hpa : (isSafeElem a && (elemKey a == k)) = true := by
            simp [hsafe, hkey]
          simp only [hpa, if_true]
          omega
        · have hk2 : ¬ k ∈ seen := by simpa using hk
          have hcontain : (elemKey a :: seen).contains k = false := by
            simp
            exact ⟨fun hcon => hkey hcon.symm, hk2⟩
          simp only [dedupElemsFrom, hsafe, hseen, Bool.false_eq_true, if_false,
            if_true]
          rw [List.countP_cons, List.countP_cons, ih _ hcontain]
          simp [hkey]
    · simp only [dedupElemsFrom, hsafe, Bool.false_eq_true, if_false]
      rw [List.countP_cons, List.countP_cons, ih seen hk]
      simp [hsafe]

theorem dedupElemsFrom_idem (es : List Elem) :
    ∀ seen : List (List Char),
      dedupElemsFrom seen (dedupElemsFrom seen es) = dedupElemsFrom seen es := by
  induction es with
  | nil => intro seen; rfl
  | cons a as ih =>
    intro seen
    by_cases hsafe : isSafeElem a = true
    · by_cases hseen : seen.contains (elemKey a) = true
      · simp only [dedupElemsFrom, hsafe, hseen, if_true]
        exact ih seen
      · simp only [dedupElemsFrom, hsafe, hseen, Bool.false_eq_true, if_false,
          if_true]
        rw [ih (elemKey a :: seen)]
    · simp only [dedupElemsFrom, hsafe, Bool.false_eq_true, if_false]
      rw [ih seen]

theorem isSafeElem_iff_amendedEligible (e : Elem) :
    isSafeElem e = true ↔ amendedEligible e = true := by
  unfold isSafeElem isSafeToRemove amendedEligible Elem.hasChildren
  cases hin : e.inner with
  | some v => simp
  | none =>
    have hn : ((none : Option (List Char)) == none) = true := rfl
    simp only [Option.isSome_none, Bool.false_eq_true, if_false, hn,
      Bool.true_and]
    rw [all_not_eq_not_any, all_not_eq_not_any]
    by_cases h1 : SHAPE_TAGS.contains (lowerStr (stripNs e.tag)) = true
    · by_cases h2 :
          (RISKY_ATTRIBUTES.any fun r => truthy (getAttr e.attrs r)) = true
      · simp [h1, h2]
      · by_cases h3 : (e.attrs.any fun kv => containsUrlRef kv.2) = true
        · simp [h1, h2, h3]
        · by_cases h4 : fullOpacity e.attrs "opacity".data = true
          · by_cases h5 : fullOpacity e.attrs "fill-opacity".data = true
            · by_cases h6 : fullOpacity e.attrs "stroke-opacity".data = true
              · simp [h1, h2, h3, h4, h5, h6]
              · simp [h1, h2, h3, h4, h5, h6]
            · simp [h1, h2, h3, h4, h5]
          · simp [h1, h2, h3, h4]
    · have h1m : ¬ lowerStr (stripNs e.tag) ∈ SHAPE_TAGS := by simpa using h1
      simp [h1, h1m]

/-! ## Claim C1, C2, C3 theorems -/

/-- C1 (amended): dedup removes an exact duplicate of a scanned element
only under the amended eligibility (the element is of the self-closing
form, its tag namespace-stripped and lowercased is in the shape set, it
carries no nonempty-valued attribute among id, class, style, filter,
mask, clip-path, clipPath, transform, no attribute value contains
url(#, every opacity-family attribute is absent or an accepted 0/1
decimal, and stroke is absent or none); when an eligible element with a
given canonical key occurs, exactly one eligible element with that key
survives (the first); and an ineligible element is never removed, even
when duplicated. -/
theorem deduplicateSVG_safety_amended (es : List Elem) :
    (∀ e : Elem, isSafeElem e = true ↔ amendedEligible e = true)
    ∧ (∀ e : Elem, isSafeElem e = false →
        (dedupElems es).count e = es.count e)
    ∧ (∀ k : List Char,
        (∃ e ∈ es, isSafeElem e = true ∧ elemKey e = k) →
        (dedupElems es).countP
          (fun x => isSafeElem x && (elemKey x == k)) = 1) := by
  refine ⟨isSafeElem_iff_amendedEligible, ?_, ?_⟩
  · intro e he
    exact dedupElemsFrom_unsafe_count e he es []
  · intro k hex
    unfold dedupElems
    rw [dedupElemsFrom_fresh_countP k es [] rfl]
    have hpos : 0 < es.countP (fun x => isSafeElem x && (elemKey x == k)) := by
      rcases hex with ⟨e, hmem, hsafe, hkey⟩
      refine List.countP_pos_iff.mpr ⟨e, hmem, ?_⟩
      simp [hsafe, hkey]
    omega

/-- Witness for the amended C1 theorem at concrete elements: an
ineligible (empty-paired) element is kept with its multiplicity, and
the duplicated eligible element with an empty-valued id leaves exactly
one survivor. -/
theorem deduplicateSVG_safety_amended_witness :
    (dedupElems [elemEmptyPaired]).count elemEmptyPaired =
        [elemEmptyPaired].count elemEmptyPaired
    ∧ (dedupElems [elemEmptyId, elemEmptyId]).countP
        (fun x => isSafeElem x && (elemKey x == elemKey elemEmptyId)) = 1 :=
  ⟨(deduplicateSVG_safety_amended [elemEmptyPaired]).2.1 elemEmptyPaired
      (by decide),
    (deduplicateSVG_safety_amended [elemEmptyId, elemEmptyId]).2.2
      (elemKey elemEmptyId) ⟨elemEmptyId, by decide, by decide, rfl⟩⟩

/-- C1 counterexample against the claim as written, on the real
string-level deduplicateSVG: an empty-paired duplicate satisfying every
claimed condition is kept (both the element-level predicate and the
string evaluation are shown); a duplicate carrying the risky attribute
id (with empty value) is removed; and a claim-eligible duplicate
carrying clipPath is kept. -/
theorem deduplicateSVG_claim_counterexample :
    (claimEligible elemEmptyPaired = true ∧
      dedupElems [elemEmptyPaired, elemEmptyPaired] =
        [elemEmptyPaired, elemEmptyPaired] ∧
      deduplicateSVG "<svg><rect width=\"2\"></rect><rect width=\"2\"></rect></svg>".data =
        "<svg><rect width=\"2\"></rect><rect width=\"2\"></rect></svg>".data)
    ∧ ((getAttr elemEmptyId.attrs "id".data).isSome = true ∧
      dedupElems [elemEmptyId, elemEmptyId] = [elemEmptyId] ∧
      deduplicateSVG "<svg><rect width=\"2\" id=\"\"/><rect width=\"2\" id=\"\"/></svg>".data =
        "<svg><rect width=\"2\" id=\"\"/></svg>".data)
    ∧ (claimEligible elemClipPath = true ∧
      dedupElems [elemClipPath, elemClipPath] = [elemClipPath, elemClipPath] ∧
      deduplicateSVG "<svg><rect clipPath=\"x\"/><rect clipPath=\"x\"/></svg>".data =
        "<svg><rect clipPath=\"x\"/><rect clipPath=\"x\"/></svg>".data) := by
  decide

/-- C2 counterexample: canonicalization is not idempotent.  The id
attributes make the duplicate rects ineligible on the first pass;
normalization then strips the ids, so the second pass removes a
duplicate the first kept. -/
theorem canonicalize_not_idempotent :
    canonicalize (canonicalize svgWithMaskedDup) ≠
      canonicalize svgWithMaskedDup := by
  decide

/-- C2 (amended): the duplicate-removal pass itself is idempotent at
the element level, and the full string pipeline applied twice agrees
with one application exactly on strings whose canonical form is fixed
by both passes; in general idempotence fails because normalization
strips the id/class/data attributes on which dedup eligibility
depends. -/
theorem canonicalize_idempotent_amended :
    (∀ es : List Elem, dedupElems (dedupElems es) = dedupElems es)
    ∧ (∀ s : List Char,
        deduplicateSVG (canonicalize s) = canonicalize s →
        normalizeSVG (canonicalize s) = canonicalize s →
        canonicalize (canonicalize s) = canonicalize s) := by
  refine ⟨fun es => dedupElemsFrom_idem es [], ?_⟩
  intro s h1 h2
  have hdef : canonicalize (canonicalize s) =
      normalizeSVG (deduplicateSVG (canonicalize s)) := rfl
  rw [hdef, h1, h2]

/-- Witness for the amended C2 theorem: a concrete fixed point. -/
theorem canonicalize_idempotent_amended_witness :
    canonicalize (canonicalize svgFixedPoint) = canonicalize svgFixedPoint :=
  canonicalize_idempotent_amended.2 svgFixedPoint (by decide) (by decide)

/-- C3 (amended): for a tone variant (duotone true) validateSVG emits
exactly the four structural checks and no tone-opacity check of any
kind; for a non-tone variant the hex-fill check is appended when a
fixed fill="#..." color occurs; all checks are collected independently
and isValid holds exactly when the error list is empty. -/
theorem validateSVG_policy_amended (svg : List Char) (w : List Char) :
    ((validateSVG svg ⟨w, true⟩).errors = structuralErrors svg)
    ∧ ((validateSVG svg ⟨w, false⟩).errors =
        structuralErrors svg ++
          (if testHexFill (svg.length + 1) svg then [hexFillMsg w] else []))
    ∧ (∀ d : Bool, (validateSVG svg ⟨w, d⟩).isValid = true ↔
        (validateSVG svg ⟨w, d⟩).errors = []) := by
  refine ⟨?_, ?_, ?_⟩
  · simp [validateSVG, structuralErrors]
  · by_cases hhex : testHexFill (svg.length + 1) svg = true
    · simp [validateSVG, structuralErrors, hexFillMsg, hhex]
    · simp [validateSVG, structuralErrors, hexFillMsg, hhex]
  · intro d
    unfold validateSVG
    simp [List.isEmpty_iff]

/-- C3 counterexample: a structurally valid canonical SVG with no
opacity marker of any form (no "opacity" substring, not even a decimal
point) passes validation for a duotone variant with an empty error
list, though the claim requires a tone-opacity validation error. -/
theorem validateSVG_tone_counterexample :
    (validateSVG duotoneNoMarkerSvg ⟨"Regular".data, true⟩).isValid = true
    ∧ (validateSVG duotoneNoMarkerSvg ⟨"Regular".data, true⟩).errors = []
    ∧ containsList duotoneNoMarkerSvg "opacity".data = false
    ∧ containsList duotoneNoMarkerSvg ".".data = false := by
  decide

/-! ## Theorems about the variant sort and the name fallback -/

theorem variantLe_iff (a b : IconVariant) :
    variantLe a b ↔
      (weightOrderVal a.variant.weight < weightOrderVal b.variant.weight ∨
        (weightOrderVal a.variant.weight = weightOrderVal b.variant.weight ∧
          duotoneBit a.variant.duotone ≤ duotoneBit b.variant.duotone)) := by
  unfold variantLe variantCmp
  simp only []
  split <;> omega

instance : IsTotal IconVariant variantLe :=
  ⟨fun a b => by rw [variantLe_iff, variantLe_iff]; omega⟩

instance : IsTrans IconVariant variantLe :=
  ⟨fun a b c h1 h2 => by
    rw [variantLe_iff] at h1 h2 ⊢
    omega⟩

/-- C6: for every icon record produced by `processIconGroup`, the
variant list is the exported variants sorted with primary key the
weight rank Regular < Bold < Fill (unrecognized weights rank 999,
last) and secondary key duotone, false before true: the output is a
permutation of the exported variants, it is sorted under the
comparator order, and pairwise the ranks are nondecreasing with equal
weights ordered non-duotone first. -/
theorem processIconGroup_variant_order (baseName : List Char)
    (components : List ComponentNode) :
    ((processIconGroup baseName components).variants).Sorted variantLe
    ∧ ((processIconGroup baseName components).variants).Perm
        ((components.map exportVariant).reduceOption)
    ∧ ((processIconGroup baseName components).variants).Pairwise
        (fun a b =>
          weightOrderVal a.variant.weight ≤ weightOrderVal b.variant.weight ∧
            (a.variant.weight = b.variant.weight →
              duotoneBit a.variant.duotone ≤ duotoneBit b.variant.duotone)) := by
  have hs : (processIconGroup baseName components).variants =
      sortVariants ((components.map exportVariant).reduceOption) := rfl
  rw [hs]
  refine ⟨List.sorted_insertionSort variantLe _,
    List.perm_insertionSort variantLe _, ?_⟩
  have hsorted := List.sorted_insertionSort variantLe
    ((components.map exportVariant).reduceOption)
  refine hsorted.imp ?_
  intro a b hab
  rw [variantLe_iff] at hab
  refine ⟨by omega, ?_⟩
  intro hw
  have : weightOrderVal a.variant.weight = weightOrderVal b.variant.weight := by
    rw [hw]
  omega

theorem fallbackFromName_weight (start : Variant) (n : List Char) :
    (fallbackFromName start n).weight =
      (match (sepLastPart n).bind keywordWeight with
       | some w => w
       | none =>
         match keywordWeight (lowerStr n) with
         | some w => w
         | none => start.weight) := by
  unfold fallbackFromName sepLastPart
  cases hf : NAME_SEPARATORS.find? (fun sep => containsList n sep) with
  | none =>
    simp only [Option.none_bind]
    unfold keywordWeight
    by_cases hb : containsList (lowerStr n) "bold".data = true
    · simp [hb]
    · by_cases hfl : containsList (lowerStr n) "fill".data = true
      · simp [hb, hfl]
      · by_cases hr : (containsList (lowerStr n) "regular".data ||
            containsList (lowerStr n) "line".data) = true
        · simp [hb, hfl, hr]
        · simp [hb, hfl, hr]
  | some sep =>
    simp only [Option.some_bind]
    unfold keywordWeight
    set lp := lowerStr (jsTrim (((jsSplit n sep).getLast?).getD [])) with hlp
    by_cases hb : containsList lp "bold".data = true
    · simp [hb]
    · by_cases hfl : containsList lp "fill".data = true
      · simp [hb, hfl]
      · by_cases hr : (containsList lp "regular".data ||
            containsList lp "line".data) = true
        · simp [hb, hfl, hr]
        · simp only [hb, hfl, hr, Bool.false_eq_true, if_false]
          by_cases hb2 : containsList (lowerStr n) "bold".data = true
          · simp [hb2]
          · by_cases hf2 : containsList (lowerStr n) "fill".data = true
            · simp [hb2, hf2]
            · by_cases hr2 : (containsList (lowerStr n) "regular".data ||
                  containsList (lowerStr n) "line".data) = true
              · simp [hb2, hf2, hr2]
              · simp [hb2, hf2, hr2]

theorem fallbackFromName_duotone (start : Variant) (n : List Char) :
    (fallbackFromName start n).duotone =
      (keywordDuotone (lowerStr n) ||
        (match sepLastPart n with
         | some lp => keywordDuotone lp
         | none => false) ||
        start.duotone) := by
  unfold fallbackFromName sepLastPart keywordDuotone
  cases hf : NAME_SEPARATORS.find? (fun sep => containsList n sep) with
  | none =>
    by_cases hd : (containsList (lowerStr n) "duotone".data ||
        containsList (lowerStr n) "tone".data) = true
    · simp [hd]
    · simp [hd]
  | some sep =>
    set lp := lowerStr (jsTrim (((jsSplit n sep).getLast?).getD [])) with hlp
    by_cases hd1 : (containsList lp "duotone".data ||
        containsList lp "tone".data) = true
    · by_cases hd2 : (containsList (lowerStr n) "duotone".data ||
          containsList (lowerStr n) "tone".data) = true
      · simp [hd1, hd2]
      · simp [hd1, hd2]
    · by_cases hd2 : (containsList (lowerStr n) "duotone".data ||
          containsList (lowerStr n) "tone".data) = true
      · simp [hd1, hd2]
      · simp [hd1, hd2]

/-- C7: when the structured variant properties are absent or provide
neither a (truthy) Weight entry nor a (truthy) Duotone entry — the
reading of "lacking a weight or a duotone entry" on which the claim
holds — `deriveVariant` falls back to parsing the display name: the
weight is taken from the keyword signal of the suffix after the
recognized separator when present, else from the whole-name keyword
signal, else from the property-derived value (default Regular); the
duotone flag is the disjunction of the whole-name tone signal, the
separator-suffix tone signal, and the property-derived flag; and with
no signal anywhere the result is the default Regular with duotone
false (the function is total, so it never throws). -/
theorem deriveVariant_fallback (c : ComponentNode)
    (hfb : fallbackCond c.variantProperties = true) :
    ((deriveVariant c).weight =
      (match (sepLastPart c.name).bind keywordWeight with
       | some w => w
       | none =>
         match keywordWeight (lowerStr c.name) with
         | some w => w
         | none => (propDerive c.variantProperties).weight))
    ∧ ((deriveVariant c).duotone =
        (keywordDuotone (lowerStr c.name) ||
          (match sepLastPart c.name with
           | some lp => keywordDuotone lp
           | none => false) ||
          (propDerive c.variantProperties).duotone))
    ∧ ((c.variantProperties = none ∧
        keywordWeight (lowerStr c.name) = none ∧
        keywordDuotone (lowerStr c.name) = false ∧
        (∀ lp, sepLastPart c.name = some lp →
          keywordWeight lp = none ∧ keywordDuotone lp = false)) →
        (deriveVariant c).weight = "Regular".data ∧
          (deriveVariant c).duotone = false) := by
  have hdv : deriveVariant c =
      fallbackFromName (propDerive c.variantProperties) c.name := by
    unfold deriveVariant
    rw [if_pos hfb]
  refine ⟨by rw [hdv]; exact fallbackFromName_weight _ _,
    by rw [hdv]; exact fallbackFromName_duotone _ _, ?_⟩
  rintro ⟨hprops, hkw, hkd, hlp⟩
  constructor
  · rw [hdv, fallbackFromName_weight, hkw, hprops]
    cases hsep : sepLastPart c.name with
    | none => rfl
    | some lp =>
      rw [Option.some_bind, (hlp lp hsep).1]
      rfl
  · rw [hdv, fallbackFromName_duotone, hkd, hprops]
    cases hsep : sepLastPart c.name with
    | none => rfl
    | some lp =>
      simp only [(hlp lp hsep).2]
      decide

/-- Witness for C7: a component with no properties and a tone keyword
after the separator resolves to duotone via the theorem. -/
theorem deriveVariant_fallback_witness :
    (deriveVariant sampleFallbackComponent).duotone =
      (keywordDuotone (lowerStr sampleFallbackComponent.name) ||
        (match sepLastPart sampleFallbackComponent.name with
         | some lp => keywordDuotone lp
         | none => false) ||
        (propDerive sampleFallbackComponent.variantProperties).duotone) :=
  (deriveVariant_fallback sampleFallbackComponent (by decide)).2.1

/-! ## Theorems about the duplicate-name gate -/

theorem lookupCount_setCount (m : List (List Char × Nat)) (k n : List Char) :
    lookupCount (setCount m k) n =
      lookupCount m n + (if k = n then 1 else 0) := by
  induction m with
  | nil => simp [setCount, lookupCount]
  | cons kv rest ih =>
    rcases kv with ⟨k0, c⟩
    by_cases hk : k0 = k
    · subst hk
      simp only [setCount, if_pos rfl, lookupCount]
      by_cases hn : k0 = n
      · simp [hn]
      · simp [hn]
    · simp only [setCount, if_neg hk, lookupCount]
      by_cases hn : k0 = n
      · subst hn
        have : ¬ k = k0 := fun hcon => hk hcon.symm
        simp [this]
      · simp [hn, ih]

theorem lookupCount_bumpCount (m : List (List Char × Nat)) (r n : List Char) :
    lookupCount (bumpCount m r) n =
      lookupCount m n +
        (if ¬r.isEmpty = true ∧ extractBaseName r = n then 1 else 0) := by
  unfold bumpCount
  by_cases he : r.isEmpty = true
  · simp [he]
  · rw [if_neg he, lookupCount_setCount]
    by_cases hb : extractBaseName r = n
    · simp [he, hb]
    · simp [he, hb]

theorem lookupCount_foldl_bump (n : List Char) (names : List (List Char)) :
    ∀ m : List (List Char × Nat),
      lookupCount (names.foldl bumpCount m) n =
        lookupCount m n +
          (names.filter (fun r => !r.isEmpty)).countP
            (fun r => extractBaseName r == n) := by
  induction names with
  | nil => intro m; simp
  | cons a as ih =>
    intro m
    rw [List.foldl_cons, ih (bumpCount m a), lookupCount_bumpCount]
    by_cases he : a.isEmpty = true
    · simp [he, List.filter_cons]
    · by_cases hb : extractBaseName a = n
      · simp [he, hb, List.filter_cons, List.countP_cons]
        omega
      · simp [he, hb, List.filter_cons, List.countP_cons]

theorem lookupCount_mem (n : List Char) (m : List (List Char × Nat))
    (h : 0 < lookupCount m n) : (n, lookupCount m n) ∈ m := by
  induction m with
  | nil => simp [lookupCount] at h
  | cons kv rest ih =>
    rcases kv with ⟨k, c⟩
    by_cases hk : k = n
    · subst hk
      simp [lookupCount]
    · rw [lookupCount, if_neg hk] at h ⊢
      exact List.mem_cons_of_mem _ (ih h)

/-- The count the code's map assigns to a base name equals the count of
that name in the claim-side multiset. -/
theorem lookupCount_eq_countedBaseNames (componentSets : List ComponentSetNode)
    (components : List ComponentNode) (childIds : List (List Char))
    (n : List Char) :
    lookupCount
        ((components.filter (fun c => !childIds.contains c.id)).foldl
          (fun m c => bumpCount m c.name)
          (componentSets.foldl (fun m s => bumpCount m s.name) []))
        n =
      (countedBaseNames componentSets components childIds).count n := by
  have h1 : componentSets.foldl (fun m s => bumpCount m s.name) [] =
      (componentSets.map ComponentSetNode.name).foldl bumpCount [] := by
    rw [List.foldl_map]
  have h2 :
      (components.filter (fun c => !childIds.contains c.id)).foldl
          (fun m c => bumpCount m c.name)
          (componentSets.foldl (fun m s => bumpCount m s.name) []) =
      ((components.filter (fun c => !childIds.contains c.id)).map
          ComponentNode.name).foldl bumpCount
        ((componentSets.map ComponentSetNode.name).foldl bumpCount []) := by
    rw [List.foldl_map, h1]
  rw [h2, lookupCount_foldl_bump, lookupCount_foldl_bump]
  unfold countedBaseNames
  rw [List.count_eq_countP, List.countP_map, List.filter_append,
    List.countP_append]
  have hfun : ((fun x => x == n) ∘ extractBaseName) =
      (fun r => extractBaseName r == n) := rfl
  rw [hfun]
  simp only [lookupCount]
  omega

theorem mem_checkForDuplicateNames (componentSets : List ComponentSetNode)
    (components : List ComponentNode) (childIds : List (List Char))
    (n : List Char)
    (h : 1 < (countedBaseNames componentSets components childIds).count n) :
    n ∈ checkForDuplicateNames componentSets components childIds := by
  unfold checkForDuplicateNames
  have hc := lookupCount_eq_countedBaseNames componentSets components childIds n
  set m2 := (components.filter (fun c => !childIds.contains c.id)).foldl
    (fun m c => bumpCount m c.name)
    (componentSets.foldl (fun m s => bumpCount m s.name) []) with hm2
  have hmem : (n, lookupCount m2 n) ∈ m2 :=
    lookupCount_mem n m2 (by omega)
  refine List.mem_map.mpr ⟨(n, lookupCount m2 n), ?_, rfl⟩
  refine List.mem_filter.mpr ⟨hmem, ?_⟩
  simp only [decide_eq_true_eq]
  omega

theorem containsList_append_right (s t pat : List Char)
    (h : containsList t pat = true) : containsList (s ++ t) pat = true := by
  induction s with
  | nil => simpa using h
  | cons c cs ih => simp [containsList, ih]

theorem startsWithList_self_append (d t : List Char) :
    startsWithList d (d ++ t) = true := by
  induction d with
  | nil => rfl
  | cons c cs ih => simp [startsWithList, ih]

theorem containsList_self_append (d t : List Char) :
    containsList (d ++ t) d = true := by
  cases d with
  | nil =>
    cases t with
    | nil => rfl
    | cons c cs => simp [containsList, startsWithList]
  | cons c cs =>
    have h := startsWithList_self_append (c :: cs) t
    simp only [List.cons_append] at h
    simp [containsList, h]

theorem mem_joinSep_contains (d : List Char) (names : List (List Char))
    (h : d ∈ names) : containsList (joinSep ", ".data names) d = true := by
  induction names with
  | nil => simp at h
  | cons x xs ih =>
    rcases List.mem_cons.mp h with rfl | hxs
    · cases xs with
      | nil =>
        have := containsList_self_append d []
        simpa using this
      | cons y ys =>
        simp only [joinSep]
        rw [List.append_assoc]
        exact containsList_self_append d _
    · cases xs with
      | nil => simp at hxs
      | cons y ys =>
        simp only [joinSep]
        rw [List.append_assoc]
        exact containsList_append_right _ _ _
          (containsList_append_right _ _ _ (ih hxs))

/-- C5 (amended): whenever some base name — derived by the separator
split from a component-set name or from the name of a component outside
every set, empty raw names being skipped — is counted more than once,
the export aborts before any variant processing: no save-icons-export
message is posted, exactly one error notification is shown, and that
notification lists every offending name. -/
theorem exportIcons_duplicate_abort (now : List Char)
    (componentSets : List ComponentSetNode) (components : List ComponentNode)
    (n : List Char)
    (hdup : 1 < (countedBaseNames componentSets components
        (collectComponentSetChildIds componentSets)).count n) :
    (∀ m ∈ (exportIcons now componentSets components).messages,
      m.isSave = false)
    ∧ (exportIcons now componentSets components).notifications =
        [dupErrorMessage (checkForDuplicateNames componentSets components
          (collectComponentSetChildIds componentSets))]
    ∧ (∀ d ∈ checkForDuplicateNames componentSets components
          (collectComponentSetChildIds componentSets),
        containsList
          (dupErrorMessage (checkForDuplicateNames componentSets components
            (collectComponentSetChildIds componentSets))) d = true)
    ∧ n ∈ checkForDuplicateNames componentSets components
        (collectComponentSetChildIds componentSets) := by
  have hmem := mem_checkForDuplicateNames componentSets components
    (collectComponentSetChildIds componentSets) n hdup
  have hne : checkForDuplicateNames componentSets components
      (collectComponentSetChildIds componentSets) ≠ [] := by
    intro hcon
    rw [hcon] at hmem
    simp at hmem
  have hnonempty : ¬(components.isEmpty && componentSets.isEmpty) = true := by
    intro hcon
    simp only [Bool.and_eq_true, List.isEmpty_iff] at hcon
    rw [hcon.1, hcon.2] at hdup
    simp [countedBaseNames] at hdup
  have hdups : (!(checkForDuplicateNames componentSets components
      (collectComponentSetChildIds componentSets)).isEmpty) = true := by
    simp [List.isEmpty_iff, hne]
  refine ⟨?_, ?_, ?_, hmem⟩
  · intro m hm
    unfold exportIcons at hm
    rw [if_neg hnonempty] at hm
    simp only [hdups, if_true] at hm
    rcases List.mem_cons.mp hm with rfl | hm2
    · rfl
    · simp at hm2
  · unfold exportIcons
    rw [if_neg hnonempty]
    simp [hdups]
  · intro d hd
    unfold dupErrorMessage
    simp only []
    rw [List.append_assoc]
    refine containsList_append_right _ _ _ ?_
    exact containsList_append_right _ _ _ (mem_joinSep_contains d _ hd)

/-- Witness for C5: the spec's abort scenario — two component sets both
named star. -/
theorem exportIcons_duplicate_abort_witness :
    (∀ m ∈ (exportIcons "t".data [starSetA, starSetB] []).messages,
      m.isSave = false)
    ∧ (exportIcons "t".data [starSetA, starSetB] []).notifications =
        [dupErrorMessage (checkForDuplicateNames [starSetA, starSetB] []
          (collectComponentSetChildIds [starSetA, starSetB]))]
    ∧ (∀ d ∈ checkForDuplicateNames [starSetA, starSetB] []
          (collectComponentSetChildIds [starSetA, starSetB]),
        containsList
          (dupErrorMessage (checkForDuplicateNames [starSetA, starSetB] []
            (collectComponentSetChildIds [starSetA, starSetB]))) d = true)
    ∧ "star".data ∈ checkForDuplicateNames [starSetA, starSetB] []
        (collectComponentSetChildIds [starSetA, starSetB]) :=
  exportIcons_duplicate_abort "t".data [starSetA, starSetB] [] "star".data
    (by decide)

/-- C5 counterexample against the claim as written: the claim counts
raw component-set names, the code derives base names from set names too
and skips empty raw names.  First input: the raw set name a=b equals
the loose component's base name, so the claimed precondition holds
(count 2), yet the run completes with no notification and posts a save
message.  Second input: two components with empty raw names share the
base name (empty), yet the run completes. -/
theorem exportIcons_claim_counterexample :
    ((([cexSet].map ComponentSetNode.name ++
        [extractBaseName cexComp.name]).count "a=b".data) = 2
      ∧ (exportIcons "t".data [cexSet] [cexComp]).notifications = []
      ∧ ((exportIcons "t".data [cexSet] [cexComp]).messages.countP
          Msg.isSave) = 1)
    ∧ (([extractBaseName cexEmptyNameA.name,
          extractBaseName cexEmptyNameB.name].count ([] : List Char)) = 2
      ∧ (exportIcons "t".data [] [cexEmptyNameA, cexEmptyNameB]).notifications
          = []
      ∧ ((exportIcons "t".data [] [cexEmptyNameA, cexEmptyNameB]).messages.countP
          Msg.isSave) = 1) := by
  decide

/-! ## Theorems about the worker pool -/

theorem mem_set_of_get_ne {α : Type} (l : List α) (w : Nat) (a x : α)
    (hx : x ∈ l) (hne : l[w]? ≠ some x) : x ∈ l.set w a := by
  rcases List.getElem_of_mem hx with ⟨j, hj, hje⟩
  by_cases hjw : j = w
  · exact absurd (by rw [← hjw, List.getElem?_eq_getElem hj, hje]) hne
  · have hj2 : j < (l.set w a).length := by rw [List.length_set]; exact hj
    have : (l.set w a)[j] = x := by
      rw [List.getElem_set_ne (fun hcon => hjw hcon.symm) hj2]
      exact hje
    exact this ▸ List.getElem_mem hj2

theorem mem_set_self {α : Type} (l : List α) (w : Nat) (a : α)
    (hw : w < l.length) : a ∈ l.set w a := by
  have hw2 : w < (l.set w a).length := by rw [List.length_set]; exact hw
  have h := List.getElem_mem hw2
  rwa [List.getElem_set_self hw2] at h

theorem poolStep_of_none {β : Type} (n : Nat) (g : Nat → β) (s : PoolState β)
    (w : Nat) (hw : s.workers[w]? = none) : poolStep n g s w = s := by
  unfold poolStep
  rw [hw]

theorem poolStep_of_some {β : Type} (n : Nat) (g : Nat → β) (s : PoolState β)
    (w : Nat) (st : WStatus) (hw : s.workers[w]? = some st) :
    poolStep n g s w = poolStepAt n g s w st := by
  unfold poolStep
  rw [hw]

theorem poolInit_inv {β : Type} (n k : Nat) (g : Nat → β) :
    PoolInv n k g (poolInit β k n) := by
  refine ⟨Nat.zero_le n, List.length_replicate _ _, List.length_replicate _ _,
    ?_, ?_, ?_⟩
  · intro i hi
    have := List.eq_of_mem_replicate hi
    exact absurd this (by intro hcon; exact WStatus.noConfusion hcon)
  · intro i hi
    exact absurd hi (Nat.not_lt_zero i)
  · intro hd
    have := List.eq_of_mem_replicate hd
    exact absurd this (by intro hcon; exact WStatus.noConfusion hcon)

theorem poolStep_inv {β : Type} (n k : Nat) (g : Nat → β) (s : PoolState β)
    (w : Nat) (h : PoolInv n k g s) : PoolInv n k g (poolStep n g s w) := by
  obtain ⟨h1, h2, h3, h4, h5, h6⟩ := h
  cases hw : s.workers[w]? with
  | none => rw [poolStep_of_none n g s w hw]; exact ⟨h1, h2, h3, h4, h5, h6⟩
  | some st =>
    rw [poolStep_of_some n g s w st hw]
    have hwlen : w < s.workers.length := by
      by_contra hcon
      rw [List.getElem?_eq_none (Nat.le_of_not_lt hcon)] at hw
      exact Option.noConfusion hw
    cases st with
    | check =>
      by_cases hn : s.next < n
      · simp only [poolStepAt]
        rw [if_pos hn]
        dsimp only [PoolInv]
        refine ⟨by omega, h2, by rw [List.length_set]; exact h3, ?_, ?_, ?_⟩
        · intro i hi
          rcases List.mem_or_eq_of_mem_set hi with hmem | heq
          · have := h4 i hmem
            omega
          · have : i = s.next := by injection heq
            omega
        · intro i hi
          by_cases hieq : i = s.next
          · right
            subst hieq
            exact mem_set_self _ _ _ hwlen
          · have hi2 : i < s.next := by omega
            rcases h5 i hi2 with hres | hpend
            · exact Or.inl hres
            · right
              refine mem_set_of_get_ne _ _ _ _ hpend ?_
              rw [hw]
              intro hcon
              exact WStatus.noConfusion (Option.some.inj hcon)
        · intro hd
          rcases List.mem_or_eq_of_mem_set hd with hmem | heq
          · exact absurd (h6 hmem) (by omega)
          · exact absurd heq (by intro hcon; exact WStatus.noConfusion hcon)
      · simp only [poolStepAt]
        rw [if_neg hn]
        dsimp only [PoolInv]
        refine ⟨h1, h2, by rw [List.length_set]; exact h3, ?_, ?_, ?_⟩
        · intro i hi
          rcases List.mem_or_eq_of_mem_set hi with hmem | heq
          · exact h4 i hmem
          · exact absurd heq (by intro hcon; exact WStatus.noConfusion hcon)
        · intro i hi
          rcases h5 i hi with hres | hpend
          · exact Or.inl hres
          · right
            refine mem_set_of_get_ne _ _ _ _ hpend ?_
            rw [hw]
            intro hcon
            exact WStatus.noConfusion (Option.some.inj hcon)
        · intro _
          omega
    | pend i =>
      simp only [poolStepAt]
      dsimp only [PoolInv]
      have hpmem : WStatus.pend i ∈ s.workers := by
        have hgw : s.workers[w] = WStatus.pend i := by
          have hge := List.getElem?_eq_getElem hwlen
          rw [hge] at hw
          exact Option.some.inj hw
        exact hgw ▸ List.getElem_mem hwlen
      have hilt : i < s.next := h4 i hpmem
      refine ⟨h1, by rw [List.length_set]; exact h2,
        by rw [List.length_set]; exact h3, ?_, ?_, ?_⟩
      · intro j hj
        rcases List.mem_or_eq_of_mem_set hj with hmem | heq
        · exact h4 j hmem
        · exact absurd heq (by intro hcon; exact WStatus.noConfusion hcon)
      · intro j hj
        by_cases hji : j = i
        · left
          subst hji
          rw [List.getElem?_set]
          have : j < s.res.length := by omega
          simp [this]
        · rcases h5 j hj with hres | hpend
          · left
            rw [List.getElem?_set]
            simp only [if_neg (fun hcon : i = j => hji hcon.symm)]
            exact hres
          · right
            refine mem_set_of_get_ne _ _ _ _ hpend ?_
            rw [hw]
            intro hcon
            have := Option.some.inj hcon
            injection this with hii
            exact hji hii.symm
      · intro hd
        rcases List.mem_or_eq_of_mem_set hd with hmem | heq
        · exact h6 hmem
        · exact absurd heq (by intro hcon; exact WStatus.noConfusion hcon)
    | done =>
      simp only [poolStepAt]
      exact ⟨h1, h2, h3, h4, h5, h6⟩

theorem poolRun_inv {β : Type} (n k : Nat) (g : Nat → β) (sched : List Nat) :
    ∀ s : PoolState β, PoolInv n k g s → PoolInv n k g (poolRun n g sched s) := by
  induction sched with
  | nil => intro s hs; exact hs
  | cons w ws ih =>
    intro s hs
    exact ih (poolStep n g s w) (poolStep_inv n k g s w hs)

theorem reduceOption_map_some {α : Type} (l : List α) :
    (l.map some).reduceOption = l := by
  induction l with
  | nil => rfl
  | cons a as ih => simp [ih]

/-- C9: for every item list, every concurrency limit of at least one,
every pure iterator and every schedule of worker interleavings that
runs the pool to completion, the result array holds `f items[i] i` in
slot `i` for every index — the sequential indexed map — independent of
the order in which the workers completed. -/
theorem mapWithConcurrency_correct {α β : Type} [Inhabited α]
    (items : List α) (limit : Nat) (f : α → Nat → β) (sched : List Nat)
    (_hlim : 1 ≤ limit) (result : List β)
    (hrun : mapWithConcurrency items limit f sched = some result) :
    result = items.mapIdx (fun i a => f a i) := by
  unfold mapWithConcurrency at hrun
  by_cases hz : items.length = 0
  · rw [if_pos hz] at hrun
    have hres : result = [] := by
      injection hrun with h
      exact h.symm
    rw [hres]
    have : items = [] := List.length_eq_zero.mp hz
    rw [this]
    rfl
  · rw [if_neg hz] at hrun
    simp only at hrun
    set n := items.length with hn
    set k := max 1 (min limit n) with hk
    set g := fun i => f (items.getD i default) i with hg
    set final := poolRun n g sched (poolInit β k n) with hfinal
    by_cases hdone : allDone final = true
    · rw [if_pos hdone] at hrun
      have hres : result = final.res.reduceOption := by
        injection hrun with h
        exact h.symm
      have hinv : PoolInv n k g final :=
        poolRun_inv n k g sched (poolInit β k n) (poolInit_inv n k g)
      obtain ⟨h1, h2, h3, h4, h5, h6⟩ := hinv
      have hkpos : 0 < k := by omega
      have hwne : final.workers ≠ [] := by
        intro hcon
        rw [hcon] at h3
        simp at h3
        omega
      have halld : ∀ x ∈ final.workers, x = WStatus.done := by
        intro x hx
        have := List.all_eq_true.mp hdone x hx
        simpa using this
      have hdmem : WStatus.done ∈ final.workers := by
        cases hwk : final.workers with
        | nil => exact absurd hwk hwne
        | cons a as =>
          have ha : a = WStatus.done := halld a (by rw [hwk]; simp)
          rw [ha]
          simp
      have hnext : final.next = n := h6 hdmem
      have hslots : ∀ i : Nat, i < n → final.res[i]? = some (some (g i)) := by
        intro i hi
        rcases h5 i (by omega) with hres2 | hpend
        · exact hres2
        · have := halld _ hpend
          exact absurd this (by intro hcon; exact WStatus.noConfusion hcon)
      have hreseq : final.res = (List.range n).map (fun i => some (g i)) := by
        refine List.ext_getElem? ?_
        intro j
        by_cases hj : j < n
        · rw [hslots j hj, List.getElem?_map, List.getElem?_range hj]
          rfl
        · rw [List.getElem?_eq_none (by omega : final.res.length ≤ j),
            List.getElem?_eq_none]
          rw [List.length_map, List.length_range]
          omega
      have hrange : (List.range n).map (fun i => some (g i)) =
          ((List.range n).map g).map some := by
        rw [List.map_map]
        rfl
      rw [hres, hreseq, hrange, reduceOption_map_some]
      refine List.ext_getElem? ?_
      intro j
      rw [List.getElem?_map, List.getElem?_mapIdx]
      by_cases hj : j < n
      · rw [List.getElem?_range hj, List.getElem?_eq_getElem (by omega)]
        simp only [Option.map_some', hg]
        rw [List.getD_eq_getElem?_getD, List.getElem?_eq_getElem (by omega)]
        rfl
      · rw [List.getElem?_eq_none (by rw [List.length_range]; omega),
          List.getElem?_eq_none (by omega)]
        rfl
    · rw [if_neg hdone] at hrun
      exact Option.noConfusion hrun

/-- Witness for C9: a two-worker schedule completing out of order still
yields the sequential map. -/
theorem mapWithConcurrency_correct_witness :
    (1 ≤ 2 ∧ mapWithConcurrency [11, 22, 33] 2 (fun a i => a + i)
        [0, 1, 1, 0, 0, 1, 0, 0] = some [11, 23, 35]) ∧
      [11, 23, 35] = [11, 22, 33].mapIdx (fun i a => a + i) :=
  ⟨⟨by decide, by decide⟩,
    mapWithConcurrency_correct [11, 22, 33] 2 (fun a i => a + i)
      [0, 1, 1, 0, 0, 1, 0, 0] (by decide) [11, 23, 35] (by decide)⟩

end Stera


